import Mathlib

/-!
# Registry credential codec (`engine/auth/auth.go`)

A shallow embedding of the package `auth` of the Docker runner: the token
codec (`encode`, `decode`), host normalisation (`hostname`), the config
reader (`Parse`) and the config writer (`Marshal`), together with models of the
Go standard-library routines they call (`encoding/base64`, `strings.SplitN`,
`net/url`, `encoding/json`).

Go strings are byte sequences; they are embedded as lists of bytes.
-/

namespace DockerAuth

/-! ## Go strings -/

/-- A byte, Go's `byte` / `uint8`. -/
abbrev Byte := Fin 256

/-- A Go `string` (equally a `[]byte`): a finite sequence of bytes. -/
abbrev GoString := List Byte

/-- The bytes of an ASCII literal, used to write Go string literals. -/
def ofAscii (s : String) : GoString := s.toList.map (fun c => Fin.ofNat c.toNat)

/-- The byte `':'`. -/
def colon : Byte := 58

/-- The byte `'\n'`. -/
def LF : Byte := 10

/-- The byte `'\r'`. -/
def CR : Byte := 13

/-- Go `strings.Cut(s, string(sep))` for a one-byte separator: the text before
and after the first occurrence of `sep`, or `none` when `sep` does not occur
(Go then returns `s, "", false`). -/
def cutByte (sep : Byte) : GoString → Option (GoString × GoString)
  | [] => none
  | c :: rest =>
    if c = sep then some ([], rest)
    else (cutByte sep rest).map (fun ab => (c :: ab.1, ab.2))

/-- Go `strings.SplitN(s, string(sep), 2)` for a one-byte separator: `genSplit`
with `n = 2` cuts at the first occurrence of the separator, and returns the
one-element slice `[s]` when there is none (also for the empty string, where
`n` is first clamped to `len(s)+1 = 1`). -/
def SplitN2 (s : GoString) (sep : Byte) : List GoString :=
  match cutByte sep s with
  | some (a, b) => [a, b]
  | none => [s]

/-! ## `encoding/base64`, `StdEncoding` -/

/-- The alphabet of `base64.StdEncoding` (`encodeStd`). -/
def encodeStd : GoString :=
  ofAscii "ABCDEFGHIJKLMNOPQRSTUVWXYZabcdefghijklmnopqrstuvwxyz0123456789+/"

/-- The padding character of `base64.StdEncoding` (`StdPadding`, `'='`). -/
def StdPadding : Byte := 61

/-- The table `enc.encode`: the character of a 6-bit value. -/
def encodeChar (i : Nat) : Byte := encodeStd.getD i 0

/-- The table `enc.decodeMap`: the 6-bit value of an alphabet character and
`0xff` for every other byte. -/
def decodeMap (c : Byte) : Nat :=
  if encodeStd.indexOf c < 64 then encodeStd.indexOf c else 0xff

/-- Go `base64.StdEncoding.EncodeToString` (`Encoding.Encode`): whole groups of
three bytes become four characters; a remainder of one or two bytes becomes
two or three characters followed by padding. -/
def EncodeToString : GoString → GoString
  | a :: b :: c :: rest =>
    let val := (a.val <<< 16) ||| (b.val <<< 8) ||| c.val
    encodeChar ((val >>> 18) &&& 0x3F) :: encodeChar ((val >>> 12) &&& 0x3F) ::
      encodeChar ((val >>> 6) &&& 0x3F) :: encodeChar (val &&& 0x3F) ::
      EncodeToString rest
  | [a, b] =>
    let val := (a.val <<< 16) ||| (b.val <<< 8)
    [encodeChar ((val >>> 18) &&& 0x3F), encodeChar ((val >>> 12) &&& 0x3F),
      encodeChar ((val >>> 6) &&& 0x3F), StdPadding]
  | [a] =>
    let val := a.val <<< 16
    [encodeChar ((val >>> 18) &&& 0x3F), encodeChar ((val >>> 12) &&& 0x3F),
      StdPadding, StdPadding]
  | [] => []

/-- The loops `for si < len(src) && (src[si] == '\n' || src[si] == '\r')` of
`decodeQuantum`: drop leading newline characters. -/
def skipNewlines : GoString → GoString
  | [] => []
  | c :: rest => if c = LF ∨ c = CR then skipNewlines rest else c :: rest

/-- The tail of `decodeQuantum`: turn the (zero-filled) buffer of up to four
6-bit values into three bytes and keep the first `dlen - 1` of them. Trailing
bits are not checked (`StdEncoding` is not strict). -/
def quantumBytes (dbuf : List Nat) (dlen : Nat) : GoString :=
  let val := (dbuf.getD 0 0 <<< 18) ||| (dbuf.getD 1 0 <<< 12) |||
    (dbuf.getD 2 0 <<< 6) ||| dbuf.getD 3 0
  [Fin.ofNat (val >>> 16), Fin.ofNat (val >>> 8), Fin.ofNat (val >>> 0)].take (dlen - 1)

/-- The decoding loop of `Encoding.Decode`, `decodeQuantum` inlined: `dbuf` holds
the 6-bit values read so far for the current quantum (`j = dbuf.length`).
The result is `none` exactly when Go returns a `CorruptInputError`. The fast
paths of `Decode` (`assemble64`, `assemble32`) agree with `decodeQuantum` on
the input they accept and are not modelled separately. -/
def decodeLoop : GoString → List Nat → Option GoString
  | [], dbuf =>
    match dbuf with
    | [] => some []          -- j == 0: end of input at a quantum boundary
    | _ => none              -- j == 1, or padding is required
  | c :: rest, dbuf =>
    if decodeMap c ≠ 0xff then
      match dbuf with
      | [s0, s1, s2] =>
        (decodeLoop rest []).map (fun tl => quantumBytes [s0, s1, s2, decodeMap c] 4 ++ tl)
      | _ => decodeLoop rest (dbuf ++ [decodeMap c])
    else if c = LF ∨ c = CR then decodeLoop rest dbuf
    else if c ≠ StdPadding then none
    else
      match dbuf with
      | [s0, s1] =>
        -- "==" is expected, the first "=" is already consumed
        match skipNewlines rest with
        | [] => none
        | c2 :: rest2 =>
          if c2 ≠ StdPadding then none
          else if skipNewlines rest2 ≠ [] then none   -- trailing garbage
          else some (quantumBytes [s0, s1] 2)
      | [s0, s1, s2] =>
        if skipNewlines rest ≠ [] then none           -- trailing garbage
        else some (quantumBytes [s0, s1, s2] 3)
      | _ => none                                     -- incorrect padding

/-- Go `base64.StdEncoding.DecodeString`: the decoded bytes, or `none` when Go
returns a non-nil error. -/
def DecodeString (s : GoString) : Option GoString := decodeLoop s []

/-! ## The token codec of `auth.go` -/

/-- `encode` returns the encoded credentials. -/
def encode (username password : GoString) : GoString :=
  EncodeToString (username ++ ofAscii ":" ++ password)

/-- `decode` returns the decoded credentials. -/
def decode (s : GoString) : GoString × GoString :=
  match DecodeString s with
  | none => ([], [])
  | some d =>
    let parts := SplitN2 d colon
    let username := if parts.length > 0 then parts.getD 0 [] else []
    let password := if parts.length > 1 then parts.getD 1 [] else []
    (username, password)

/-! ## Validity of a token, in the words of the specification -/

/-- A character of the standard alphabet: `A`-`Z`, `a`-`z`, `0`-`9`, `+`, `/`. -/
def isStdAlphabet (c : Byte) : Bool :=
  (65 ≤ c.val && c.val ≤ 90) || (97 ≤ c.val && c.val ≤ 122) ||
    (48 ≤ c.val && c.val ≤ 57) || c.val == 43 || c.val == 47

/-- Valid standard, padded base64 text as the specification words it (RFC 4648,
section 4): groups of four alphabet characters, where the last group may end
in one or two padding characters. No other character is allowed. -/
def validStdBase64 : GoString → Bool
  | [] => true
  | a :: b :: c :: d :: rest =>
    isStdAlphabet a && isStdAlphabet b &&
      (if rest = [] then
        (isStdAlphabet c && (isStdAlphabet d || d == StdPadding)) ||
          (c == StdPadding && d == StdPadding)
      else isStdAlphabet c && isStdAlphabet d && validStdBase64 rest)
  | _ => false

/-- The text with every `'\r'` and `'\n'` removed. -/
def stripNewlines (s : GoString) : GoString := s.filter (fun c => c ≠ LF ∧ c ≠ CR)

/-! ## `net/url`

`url.Parse` as implemented in `src/net/url/url.go` of the Go distribution. The
fields `RawPath`, `RawFragment` and `OmitHost`, which are printing hints, are
not kept; `auth.go` reads `Host` only. -/

namespace url

/-- The `encoding` modes of `net/url`. -/
inductive encoding
  | encodePath
  | encodePathSegment
  | encodeHost
  | encodeZone
  | encodeUserPassword
  | encodeQueryComponent
  | encodeFragment
  deriving DecidableEq

/-- Go `url.Userinfo`. -/
structure Userinfo where
  username : GoString
  password : GoString
  passwordSet : Bool
  deriving DecidableEq

/-- Go `url.URL`. -/
structure URL where
  Scheme : GoString := []
  Opaque : GoString := []
  User : Option Userinfo := none
  Host : GoString := []
  Path : GoString := []
  ForceQuery : Bool := false
  RawQuery : GoString := []
  Fragment : GoString := []
  deriving DecidableEq

/-- ASCII letter. -/
def isLetter (c : Byte) : Bool :=
  (97 ≤ c.val && c.val ≤ 122) || (65 ≤ c.val && c.val ≤ 90)

/-- ASCII digit. -/
def isDigit (c : Byte) : Bool := 48 ≤ c.val && c.val ≤ 57

/-- Go `ishex`. -/
def ishex (c : Byte) : Bool :=
  (48 ≤ c.val && c.val ≤ 57) || (97 ≤ c.val && c.val ≤ 102) || (65 ≤ c.val && c.val ≤ 70)

/-- Go `unhex`. -/
def unhex (c : Byte) : Nat :=
  if 48 ≤ c.val ∧ c.val ≤ 57 then c.val - 48
  else if 97 ≤ c.val ∧ c.val ≤ 102 then c.val - 97 + 10
  else if 65 ≤ c.val ∧ c.val ≤ 70 then c.val - 65 + 10
  else 0

/-- Go `shouldEscape`: whether the byte must be escaped when it appears in the
given part of a URL. -/
def shouldEscape (c : Byte) (mode : encoding) : Bool :=
  if isLetter c || isDigit c then false
  else if (mode = .encodeHost ∨ mode = .encodeZone) ∧ c ∈ ofAscii "!$&\'()*+,;=:[]<>\"" then
    false
  else if c ∈ ofAscii "-_.~" then false
  else if c ∈ ofAscii "$&+,/:;=?@" ∧ mode = .encodePath then c = 63
  else if c ∈ ofAscii "$&+,/:;=?@" ∧ mode = .encodePathSegment then
    c ∈ ofAscii "/;,?"
  else if c ∈ ofAscii "$&+,/:;=?@" ∧ mode = .encodeUserPassword then
    c ∈ ofAscii "@/?:"
  else if c ∈ ofAscii "$&+,/:;=?@" ∧ mode = .encodeQueryComponent then true
  else if c ∈ ofAscii "$&+,/:;=?@" ∧ mode = .encodeFragment then false
  else if mode = .encodeFragment ∧ c ∈ ofAscii "!()*" then false
  else true

/-- Go `unescape`: undo `%XX` escapes, rejecting a malformed escape and, in a
host, an escape of an ASCII byte or a byte that a host cannot hold. The two
passes of the Go function (check, then build) are done in one. -/
def unescape (mode : encoding) : GoString → Option GoString
  | [] => some []
  | c :: rest =>
    if c = 37 then           -- '%'
      match rest with
      | h1 :: h2 :: rest2 =>
        if !ishex h1 || !ishex h2 then none
        else if mode = .encodeHost ∧ unhex h1 < 8 ∧ [c, h1, h2] ≠ ofAscii "%25" then none
        else if mode = .encodeZone ∧ [c, h1, h2] ≠ ofAscii "%25" ∧
            ((unhex h1 <<< 4) ||| unhex h2) ≠ 32 ∧
            shouldEscape (Fin.ofNat ((unhex h1 <<< 4) ||| unhex h2)) .encodeHost then none
        else
          (unescape mode rest2).map
            (fun t => Fin.ofNat ((unhex h1 <<< 4) ||| unhex h2) :: t)
      | _ => none
    else if c = 43 then      -- '+'
      (unescape mode rest).map
        (fun t => (if mode = .encodeQueryComponent then (32 : Byte) else 43) :: t)
    else if (mode = .encodeHost ∨ mode = .encodeZone) ∧ c.val < 0x80 ∧
        shouldEscape c .encodeHost then none
    else (unescape mode rest).map (fun t => c :: t)

/-- Go `stringContainsCTLByte`. -/
def stringContainsCTLByte (s : GoString) : Bool := s.any (fun b => b.val < 32 || b.val == 0x7f)

/-- The loop of Go `getScheme`, at index `i` with `rest` the text from `i` on. -/
def getSchemeLoop (rawURL : GoString) : Nat → GoString → Option (GoString × GoString)
  | _, [] => some ([], rawURL)
  | i, c :: rest =>
    if isLetter c then getSchemeLoop rawURL (i + 1) rest
    else if isDigit c ∨ c = 43 ∨ c = 45 ∨ c = 46 then     -- '+', '-', '.'
      if i = 0 then some ([], rawURL) else getSchemeLoop rawURL (i + 1) rest
    else if c = colon then
      if i = 0 then none                                   -- missing protocol scheme
      else some (rawURL.take i, rest)
    else some ([], rawURL)

/-- Go `getScheme`: the scheme and the rest of the URL, `none` for the error
"missing protocol scheme". -/
def getScheme (rawURL : GoString) : Option (GoString × GoString) :=
  getSchemeLoop rawURL 0 rawURL

/-- Go `strings.ToLower` on ASCII text. -/
def toLower (s : GoString) : GoString :=
  s.map (fun c => if 65 ≤ c.val ∧ c.val ≤ 90 then Fin.ofNat (c.val + 32) else c)

/-- Go `validOptionalPort`: empty, or a colon followed by digits only. -/
def validOptionalPort : GoString → Bool
  | [] => true
  | c :: rest => c = colon && rest.all isDigit

/-- Go `validUserinfo`. -/
def validUserinfo (s : GoString) : Bool :=
  s.all (fun r => isLetter r || isDigit r || decide (r ∈ ofAscii "-._:~!$&\'()*+,;=%@"))

/-- The text after the last occurrence of `sep`, with that occurrence, and the
text before it (`strings.LastIndex` and the two slices taken at it). -/
def cutLastByte (sep : Byte) (s : GoString) : Option (GoString × GoString) :=
  (cutByte sep s.reverse).map (fun ab => (ab.2.reverse, ab.1.reverse))

/-- The position of the first occurrence of `"%25"` (`strings.Index`), as the
text before it and the text from it on. -/
def cutAtZone : GoString → Option (GoString × GoString)
  | [] => none
  | c :: rest =>
    if (c :: rest).take 3 = ofAscii "%25" then some ([], c :: rest)
    else (cutAtZone rest).map (fun ab => (c :: ab.1, ab.2))

/-- Go `parseHost`: the host of an authority without user information. -/
def parseHost (host : GoString) : Option GoString :=
  if host.take 1 = ofAscii "[" then
    -- an IP-literal
    match cutLastByte 93 host with                       -- ']'
    | none => none                                       -- missing ']' in host
    | some (beforeBracket, colonPort) =>
      if !validOptionalPort colonPort then none
      else
        match cutAtZone beforeBracket with
        | some (h1, zone) =>
          match unescape .encodeHost h1, unescape .encodeZone zone,
              unescape .encodeHost (93 :: colonPort) with
          | some host1, some host2, some host3 => some (host1 ++ host2 ++ host3)
          | _, _, _ => none
        | none => unescape .encodeHost host
  else
    match cutLastByte colon host with
    | some (_, port) =>
      if !validOptionalPort (colon :: port) then none else unescape .encodeHost host
    | none => unescape .encodeHost host

/-- Go `parseAuthority`: user information and host of an authority. -/
def parseAuthority (authority : GoString) : Option (Option Userinfo × GoString) :=
  match cutLastByte 64 authority with                    -- '@'
  | none => (parseHost authority).map (fun h => (none, h))
  | some (userinfo, hostport) =>
    match parseHost hostport with
    | none => none
    | some host =>
      if !validUserinfo userinfo then none
      else
        match cutByte colon userinfo with
        | none =>
          (unescape .encodeUserPassword userinfo).map
            (fun u => (some ⟨u, [], false⟩, host))
        | some (username, password) =>
          match unescape .encodeUserPassword username,
              unescape .encodeUserPassword password with
          | some u, some p => some (some ⟨u, p, true⟩, host)
          | _, _ => none

/-- Go `parse(rawURL, false)`, the body of `url.Parse` once the fragment is cut
off; `none` when Go returns an error. -/
def parse (rawURL : GoString) : Option URL :=
  if stringContainsCTLByte rawURL then none
  else if rawURL = ofAscii "*" then some { Path := ofAscii "*" }
  else
    match getScheme rawURL with
    | none => none
    | some (scheme0, rest0) =>
      let scheme := toLower scheme0
      let forceQuery : Bool := rest0.getLast? = some 63 ∧ rest0.count 63 = 1     -- '?'
      let rest1 : GoString :=
        if forceQuery then rest0.dropLast
        else match cutByte 63 rest0 with
          | some ab => ab.1
          | none => rest0
      let rawQuery : GoString :=
        if forceQuery then []
        else match cutByte 63 rest0 with
          | some ab => ab.2
          | none => []
      if rest1.take 1 ≠ ofAscii "/" ∧ scheme ≠ [] then
        -- rootless paths are opaque
        some { Scheme := scheme, Opaque := rest1, ForceQuery := forceQuery, RawQuery := rawQuery }
      else if rest1.take 1 ≠ ofAscii "/" ∧
          colon ∈ (match cutByte 47 rest1 with | some ab => ab.1 | none => rest1) then
        none       -- first path segment in URL cannot contain colon
      else if (scheme ≠ [] ∨ rest1.take 3 ≠ ofAscii "///") ∧ rest1.take 2 = ofAscii "//" then
        let afterSlashes := rest1.drop 2
        let authority : GoString :=
          match cutByte 47 afterSlashes with | some ab => ab.1 | none => afterSlashes
        let rest2 : GoString :=
          match cutByte 47 afterSlashes with | some ab => 47 :: ab.2 | none => []
        match parseAuthority authority with
        | none => none
        | some (user, host) =>
          match unescape .encodePath rest2 with
          | none => none
          | some path =>
            some { Scheme := scheme, User := user, Host := host, Path := path,
                   ForceQuery := forceQuery, RawQuery := rawQuery }
      else
        match unescape .encodePath rest1 with
        | none => none
        | some path =>
          some { Scheme := scheme, Path := path, ForceQuery := forceQuery, RawQuery := rawQuery }

/-- Go `url.Parse`: the parsed URL, or `none` when Go returns `(nil, err)`. -/
def Parse (rawURL : GoString) : Option URL :=
  let u : GoString := match cutByte 35 rawURL with | some ab => ab.1 | none => rawURL   -- '#'
  let frag : GoString := match cutByte 35 rawURL with | some ab => ab.2 | none => []
  match parse u with
  | none => none
  | some uri =>
    if frag = [] then some uri
    else
      match unescape .encodeFragment frag with
      | none => none
      | some f => some { uri with Fragment := f }

end url

/-! ## Host normalisation -/

/-- How a call of a Go function ends. -/
inductive Outcome (ε α : Type)
  | returns (v : α)     -- normal return, with a nil error where there is one
  | fails (err : ε)     -- return of a non-nil error
  | panics              -- run-time panic: nil pointer dereference
  deriving DecidableEq

/-- `hostname`: the host of the registry key when the key parses as a URL with a
host. The error of `url.Parse` is discarded; when it is not nil the returned
`*URL` is nil and reading `uri.Host` panics. -/
def hostname (s : GoString) : Outcome Empty GoString :=
  match url.Parse s with
  | none => .panics
  | some uri => if uri.Host ≠ [] then .returns uri.Host else .returns s

/-! ## The data model of `auth.go` -/

/-- The record `engine.Auth`: the credentials of one registry. -/
structure Auth where
  Address : GoString
  Username : GoString
  Password : GoString
  deriving DecidableEq

/-- The struct `auths`: one entry of the Docker client configuration. -/
structure auths where
  Auth : GoString
  deriving DecidableEq

/-- A Go `map[string]auths`: its entries, with pairwise distinct keys. The order
of the list carries no meaning; a nil map and an empty map are both `[]` (the
package only ranges over the one and only marshals the other). -/
abbrev GoMap := List (GoString × auths)

/-- The assignment `m[k] = v` on a Go map. -/
def mapSet : GoMap → GoString → auths → GoMap
  | [], k, v => [(k, v)]
  | (k0, v0) :: rest, k, v =>
    if k0 = k then (k, v) :: rest else (k0, v0) :: mapSet rest k v

/-- The struct `config`: the Docker client configuration, typically located at
`~/.docker/config.json`. -/
structure config where
  Auths : GoMap
  deriving DecidableEq

/-- An order in which `for k, v := range m` visits the entries of a map: Go leaves
it unspecified, so every enumeration of the entries is one. -/
structure RangeOrder where
  visit : GoMap → GoMap
  perm : ∀ m, (visit m).Perm m

/-- The enumeration that visits the entries as they are listed. -/
def RangeOrder.asListed : RangeOrder := ⟨fun m => m, fun m => List.Perm.refl m⟩

/-- The enumeration that visits the entries in the reverse order. -/
def RangeOrder.reversed : RangeOrder := ⟨fun m => m.reverse, fun m => List.reverse_perm m⟩

/-! ## `encoding/json`, decoding into `config`

The decoder is modelled on the JSON value it reads from the stream; the
lexical layer (from bytes to the value) is not. -/

namespace json

/-- A JSON value as the decoder scans it; objects keep their members in the
order of the text, duplicates included, and strings are already unquoted. -/
inductive Value
  | null
  | bool (b : Bool)
  | number (text : GoString)
  | string (s : GoString)
  | array (elems : List Value)
  | object (members : List (GoString × Value))

/-- The errors of the decoder. -/
inductive Error
  | syntaxError           -- `*json.SyntaxError`, or `io.EOF` on an empty stream
  | unmarshalTypeError    -- `*json.UnmarshalTypeError`
  deriving DecidableEq

/-- The folded form of an object key under which the decoder looks up a struct
field when no field has exactly that name: ASCII letters in upper case, the
Kelvin sign (U+212A) as `K` and the long s (U+017F) as `S`. No other
character folds to an ASCII letter. -/
def foldName : GoString → GoString
  | [] => []
  | 0xE2 :: 0x84 :: 0xAA :: rest => 75 :: foldName rest
  | 0xC5 :: 0xBF :: rest => 83 :: foldName rest
  | c :: rest =>
    (if 97 ≤ c.val ∧ c.val ≤ 122 then Fin.ofNat (c.val - 32) else c) :: foldName rest

/-- Whether an object key selects the struct field with the given JSON name. -/
def matchesField (name key : GoString) : Bool := key = name || foldName key = foldName name

/-- Decoding a value into the string field `Auth`, which holds `cur`. -/
def decodeString (cur : GoString) : Value → Except Error GoString
  | .string s => .ok s
  | .null => .ok cur
  | _ => .error .unmarshalTypeError

/-- Decoding the members of an object into a struct `auths`. -/
def decodeAuthsFields : List (GoString × Value) → auths → Except Error auths
  | [], cur => .ok cur
  | (k, v) :: rest, cur =>
    if matchesField (ofAscii "auth") k then
      match decodeString cur.Auth v with
      | .ok s => decodeAuthsFields rest ⟨s⟩
      | .error e => .error e
    else decodeAuthsFields rest cur

/-- Decoding a value into a zeroed map element of type `auths`. -/
def decodeAuths : Value → Except Error auths
  | .object fields => decodeAuthsFields fields ⟨[]⟩
  | .null => .ok ⟨[]⟩
  | _ => .error .unmarshalTypeError

/-- Decoding the members of an object into a `map[string]auths`: each member is
decoded into a zeroed element, which is then stored under its key. -/
def decodeMapEntries : List (GoString × Value) → GoMap → Except Error GoMap
  | [], cur => .ok cur
  | (k, v) :: rest, cur =>
    match decodeAuths v with
    | .ok e => decodeMapEntries rest (mapSet cur k e)
    | .error e => .error e

/-- Decoding a value into the field `Auths`, which holds `cur`; `null` resets the
map. -/
def decodeAuthsMap (cur : GoMap) : Value → Except Error GoMap
  | .object entries => decodeMapEntries entries cur
  | .null => .ok []
  | _ => .error .unmarshalTypeError

/-- Decoding the members of the top-level object into a struct `config`; members
that select no field are skipped. -/
def decodeConfigFields : List (GoString × Value) → config → Except Error config
  | [], cur => .ok cur
  | (k, v) :: rest, cur =>
    if matchesField (ofAscii "auths") k then
      match decodeAuthsMap cur.Auths v with
      | .ok m => decodeConfigFields rest ⟨m⟩
      | .error e => .error e
    else decodeConfigFields rest cur

/-- Go `json.NewDecoder(r).Decode(c)` for `c := new(config)`, on the value read
from the stream (`none`: the stream does not start with a JSON value). A
`null` leaves the struct as it is; any other value that is not an object is a
type error. -/
def Decode : Option Value → Except Error config
  | none => .error .syntaxError
  | some (.object members) => decodeConfigFields members ⟨[]⟩
  | some .null => .ok ⟨[]⟩
  | some _ => .error .unmarshalTypeError

end json

/-! ## `Parse` -/

/-- The loop of `Parse` over the visited entries, appending to `acc`. -/
def ParseLoop : GoMap → List Auth → Outcome json.Error (List Auth)
  | [], acc => .returns acc
  | (k, v) :: rest, acc =>
    match hostname k with
    | .returns address =>
      ParseLoop rest (acc ++ [{ Address := address, Username := (decode v.Auth).1,
                                Password := (decode v.Auth).2 }])
    | .panics => .panics
    | .fails e => nomatch e

/-- `Parse` parses the registry credential from the reader. The reader is given by
the JSON value at the start of its content, `range` by the order it takes. -/
def Parse (ρ : RangeOrder) (r : Option json.Value) : Outcome json.Error (List Auth) :=
  match json.Decode r with
  | .error err => .fails err
  | .ok c => ParseLoop (ρ.visit c.Auths) []

/-! ## `encoding/json`, encoding a `config` -/

namespace json

/-- Go `utf8.DecodeRuneInString`, as far as the encoder uses it: the number of
bytes of the UTF-8 sequence at the head of the text, and `0` when the head is
not a valid sequence (Go returns `RuneError` with size 1). -/
def runeSize : GoString → Nat
  | [] => 0
  | s0 :: rest =>
    let cont (b : Byte) : Bool := 0x80 ≤ b.val && b.val ≤ 0xBF
    let two (lo hi : Nat) : Nat :=
      match rest with
      | s1 :: _ => if lo ≤ s1.val ∧ s1.val ≤ hi then 2 else 0
      | _ => 0
    let three (lo hi : Nat) : Nat :=
      match rest with
      | s1 :: s2 :: _ => if lo ≤ s1.val ∧ s1.val ≤ hi ∧ cont s2 then 3 else 0
      | _ => 0
    let four (lo hi : Nat) : Nat :=
      match rest with
      | s1 :: s2 :: s3 :: _ =>
        if lo ≤ s1.val ∧ s1.val ≤ hi ∧ cont s2 ∧ cont s3 then 4 else 0
      | _ => 0
    if s0.val < 0x80 then 1
    else if s0.val < 0xC2 then 0
    else if s0.val ≤ 0xDF then two 0x80 0xBF
    else if s0.val = 0xE0 then three 0xA0 0xBF
    else if s0.val = 0xED then three 0x80 0x9F
    else if s0.val ≤ 0xEF then three 0x80 0xBF
    else if s0.val = 0xF0 then four 0x90 0xBF
    else if s0.val ≤ 0xF3 then four 0x80 0xBF
    else if s0.val = 0xF4 then four 0x80 0x8F
    else 0

/-- The digits `hex` of the encoder. -/
def hexDigit (n : Nat) : Byte := (ofAscii "0123456789abcdef").getD n 0

/-- The table `htmlSafeSet`: the ASCII bytes the encoder copies as they are. -/
def htmlSafeSet (b : Byte) : Bool :=
  0x20 ≤ b.val && b.val < 0x80 && !(b ∈ ofAscii "\"\\<>&")

/-- How the encoder writes an ASCII byte that is not in `htmlSafeSet`: a backslash
escape for the quote, the backslash, `'\n'`, `'\r'` and `'\t'`, and `\u00XX`
for the others (releases from Go 1.22 on write `\b` and `\f` for two of them). -/
def escapeByte (b : Byte) : GoString :=
  if b = 92 ∨ b = 34 then [92, b]                     -- backslash, double quote
  else if b = LF then ofAscii "\\n"
  else if b = CR then ofAscii "\\r"
  else if b = 9 then ofAscii "\\t"
  else ofAscii "\\u00" ++ [hexDigit (b.val >>> 4), hexDigit (b.val &&& 0xF)]

/-- The loop of the string encoder (`encodeState.string` with `escapeHTML`): `copy`
counts the bytes still to copy of a valid multi-byte character, `skip` the
bytes still to drop of a character written as an escape. -/
def encodeStringLoop : Nat → Nat → GoString → GoString
  | _, _, [] => []
  | copy + 1, skip, b :: rest => b :: encodeStringLoop copy skip rest
  | 0, skip + 1, _ :: rest => encodeStringLoop 0 skip rest
  | 0, 0, b :: rest =>
    if b.val < 0x80 then
      if htmlSafeSet b then b :: encodeStringLoop 0 0 rest
      else escapeByte b ++ encodeStringLoop 0 0 rest
    else if runeSize (b :: rest) = 0 then ofAscii "\\ufffd" ++ encodeStringLoop 0 0 rest
    else if (b :: rest).take 3 = [0xE2, 0x80, 0xA8] then
      ofAscii "\\u2028" ++ encodeStringLoop 0 2 rest
    else if (b :: rest).take 3 = [0xE2, 0x80, 0xA9] then
      ofAscii "\\u2029" ++ encodeStringLoop 0 2 rest
    else b :: encodeStringLoop (runeSize (b :: rest) - 1) 0 rest

/-- A Go string as a JSON string literal. -/
def encodeString (s : GoString) : GoString :=
  ofAscii "\"" ++ encodeStringLoop 0 0 s ++ ofAscii "\""

/-- Go's order `<` on strings: bytewise lexicographic. -/
def stringLt : GoString → GoString → Bool
  | [], [] => false
  | [], _ :: _ => true
  | _ :: _, [] => false
  | a :: as, b :: bs => a.val < b.val || (a == b && stringLt as bs)

/-- Insert an entry into a list of entries sorted by key. -/
def insertByKey (e : GoString × auths) : GoMap → GoMap
  | [] => [e]
  | e0 :: rest => if stringLt e0.1 e.1 then e0 :: insertByKey e rest else e :: e0 :: rest

/-- The entries of a map in the order in which the encoder writes them: sorted by
key. -/
def sortByKey (m : GoMap) : GoMap := m.foldr insertByKey []

/-- The encoding of a struct `auths`. -/
def encodeAuths (v : auths) : GoString :=
  ofAscii "\x7b\"auth\":" ++ encodeString v.Auth ++ ofAscii "\x7d"

/-- The encoding of the sorted entries of a map, separated by commas. -/
def encodeEntries : GoMap → GoString
  | [] => []
  | [e] => encodeString e.1 ++ ofAscii ":" ++ encodeAuths e.2
  | e :: rest => encodeString e.1 ++ ofAscii ":" ++ encodeAuths e.2 ++ ofAscii "," ++
      encodeEntries rest

/-- Go `json.Marshal(out)` for a `*config` whose map is not nil: the document
`{"auths":{...}}`. No value of this type makes the encoder fail. -/
def Marshal (out : config) : Except Error GoString :=
  .ok (ofAscii "\x7b\"auths\":\x7b" ++ encodeEntries (sortByKey out.Auths) ++ ofAscii "\x7d\x7d")

end json

/-! ## `Marshal` -/

/-- The loop of `Marshal`: the map `out.Auths` after the records of `list` are
stored into `m`, one after the other. -/
def MarshalLoop : List Auth → GoMap → GoMap
  | [], m => m
  | item :: rest, m =>
    MarshalLoop rest (mapSet m item.Address ⟨encode item.Username item.Password⟩)

/-- `Marshal` marshals the Auth credentials to a `.docker/config.json` file. The
records are given by value: a nil pointer in `list` is not modelled. -/
def Marshal (list : List Auth) : Outcome json.Error GoString :=
  let out : config := ⟨MarshalLoop list []⟩
  match json.Marshal out with
  | .ok bytes => .returns bytes
  | .error err => .fails err

/-! ## The specification's wording of the operations -/

/-- Host normalisation as the specification words it: the host component when the
key parses as a URL with a non-empty host, and the key unchanged otherwise
(parse failure included). -/
def hostNormalize (s : GoString) : GoString :=
  match url.Parse s with
  | some uri => if uri.Host ≠ [] then uri.Host else s
  | none => s

/-- The record the specification assigns to an entry of the `auths` mapping. -/
def recordOf (e : GoString × auths) : Auth :=
  { Address := hostNormalize e.1, Username := (decode e.2.Auth).1,
    Password := (decode e.2.Auth).2 }

/-- A document of the expected shape, `{"auths": {k: {"auth": t}, ...}}`, with one
entry for each pair of a key and a token. -/
def document (entries : List (GoString × GoString)) : json.Value :=
  .object [(ofAscii "auths",
    .object (entries.map (fun e => (e.1, .object [(ofAscii "auth", .string e.2)]))))]

/-- An entry whose token is valid padded base64 once newlines are dropped. -/
def wellFormedEntry (e : GoString × GoString) : Bool := validStdBase64 (stripNewlines e.2)

/-! ## `encoding/base64`, `URLEncoding` -/

namespace base64

/-- A padded `base64.Encoding` (`NewEncoding(encoder)`, padding `'='`, not strict),
given by its alphabet of 64 characters. -/
structure Encoding where
  encoder : GoString

/-- The alphabet of `base64.URLEncoding` (`encodeURL`). -/
def encodeURL : GoString :=
  ofAscii "ABCDEFGHIJKLMNOPQRSTUVWXYZabcdefghijklmnopqrstuvwxyz0123456789-_"

/-- Go `base64.URLEncoding`. -/
def URLEncoding : Encoding := ⟨encodeURL⟩

/-- Go `base64.StdEncoding`, as a value of `Encoding`. -/
def StdEncoding : Encoding := ⟨encodeStd⟩

/-- The table `enc.encode`. -/
def Encoding.encodeChar (enc : Encoding) (i : Nat) : Byte := enc.encoder.getD i 0

/-- The table `enc.decodeMap`. -/
def Encoding.decodeMap (enc : Encoding) (c : Byte) : Nat :=
  if enc.encoder.indexOf c < 64 then enc.encoder.indexOf c else 0xff

/-- Go `Encoding.EncodeToString`, for any alphabet. -/
def Encoding.EncodeToString (enc : Encoding) : GoString → GoString
  | a :: b :: c :: rest =>
    let val := (a.val <<< 16) ||| (b.val <<< 8) ||| c.val
    enc.encodeChar ((val >>> 18) &&& 0x3F) :: enc.encodeChar ((val >>> 12) &&& 0x3F) ::
      enc.encodeChar ((val >>> 6) &&& 0x3F) :: enc.encodeChar (val &&& 0x3F) ::
      Encoding.EncodeToString enc rest
  | [a, b] =>
    let val := (a.val <<< 16) ||| (b.val <<< 8)
    [enc.encodeChar ((val >>> 18) &&& 0x3F), enc.encodeChar ((val >>> 12) &&& 0x3F),
      enc.encodeChar ((val >>> 6) &&& 0x3F), StdPadding]
  | [a] =>
    let val := a.val <<< 16
    [enc.encodeChar ((val >>> 18) &&& 0x3F), enc.encodeChar ((val >>> 12) &&& 0x3F),
      StdPadding, StdPadding]
  | [] => []

/-- The decoding loop of `Encoding.Decode`, for any alphabet (see `decodeLoop`). -/
def Encoding.decodeLoop (enc : Encoding) : GoString → List Nat → Option GoString
  | [], dbuf =>
    match dbuf with
    | [] => some []
    | _ => none
  | c :: rest, dbuf =>
    if enc.decodeMap c ≠ 0xff then
      match dbuf with
      | [s0, s1, s2] =>
        (Encoding.decodeLoop enc rest []).map
          (fun tl => quantumBytes [s0, s1, s2, enc.decodeMap c] 4 ++ tl)
      | _ => Encoding.decodeLoop enc rest (dbuf ++ [enc.decodeMap c])
    else if c = LF ∨ c = CR then Encoding.decodeLoop enc rest dbuf
    else if c ≠ StdPadding then none
    else
      match dbuf with
      | [s0, s1] =>
        match skipNewlines rest with
        | [] => none
        | c2 :: rest2 =>
          if c2 ≠ StdPadding then none
          else if skipNewlines rest2 ≠ [] then none
          else some (quantumBytes [s0, s1] 2)
      | [s0, s1, s2] =>
        if skipNewlines rest ≠ [] then none
        else some (quantumBytes [s0, s1, s2] 3)
      | _ => none

/-- Go `Encoding.DecodeString`, for any alphabet. -/
def Encoding.DecodeString (enc : Encoding) (s : GoString) : Option GoString :=
  enc.decodeLoop s []

end base64

/-! ## `encoding/json`, encoding the credentials of `Encode` -/

namespace json

/-- The members of an object, separated by commas. -/
def joinComma : List GoString → GoString
  | [] => []
  | [x] => x
  | x :: rest => x ++ ofAscii "," ++ joinComma rest

/-- Go `json.Marshal(&v)` for the struct of `Encode`, whose fields `username` and
`password` are both tagged `omitempty`: a field that holds the empty string is
left out. No value of this type makes the encoder fail. -/
def MarshalCredentials (username password : GoString) : Except Error GoString :=
  .ok (ofAscii "\x7b" ++
    joinComma
      ((if username = [] then [] else [ofAscii "\"username\":" ++ encodeString username]) ++
       (if password = [] then [] else [ofAscii "\"password\":" ++ encodeString password])) ++
    ofAscii "\x7d")

end json

/-! ## `Encode` -/

/-- `Encode` returns the json marshaled, base64 encoded credential string that can
be passed to the docker registry authentication header. The error of
`json.Marshal` is discarded; `buf` is then nil. -/
def Encode (username password : GoString) : GoString :=
  match json.MarshalCredentials username password with
  | .ok buf => base64.URLEncoding.EncodeToString buf
  | .error _ => base64.URLEncoding.EncodeToString []

/-! ## `encoding/json`, reading a value from a stream

`Decoder.Decode` reads the first JSON value of the stream and leaves what
follows it unread. -/

namespace json

/-- Go `isSpace`: the white space of JSON. -/
def isSpace (c : Byte) : Bool := c = 32 || c = 9 || c = CR || c = LF

/-- Drop leading white space. -/
def skipSpace : GoString → GoString
  | [] => []
  | c :: rest => if isSpace c then skipSpace rest else c :: rest

/-- The value of a hexadecimal digit. -/
def hexVal (c : Byte) : Nat := url.unhex c

/-- Go `utf8.EncodeRune` (`utf8.AppendRune`): the UTF-8 sequence of a rune, that of
U+FFFD for a surrogate or a value out of range. -/
def encodeRune (r : Nat) : GoString :=
  if r < 0x80 then [Fin.ofNat r]
  else if r < 0x800 then [Fin.ofNat (0xC0 ||| (r >>> 6)), Fin.ofNat (0x80 ||| (r &&& 0x3F))]
  else if (0xD800 ≤ r ∧ r ≤ 0xDFFF) ∨ 0x10FFFF < r then [0xEF, 0xBF, 0xBD]
  else if r < 0x10000 then
    [Fin.ofNat (0xE0 ||| (r >>> 12)), Fin.ofNat (0x80 ||| ((r >>> 6) &&& 0x3F)),
      Fin.ofNat (0x80 ||| (r &&& 0x3F))]
  else
    [Fin.ofNat (0xF0 ||| (r >>> 18)), Fin.ofNat (0x80 ||| ((r >>> 12) &&& 0x3F)),
      Fin.ofNat (0x80 ||| ((r >>> 6) &&& 0x3F)), Fin.ofNat (0x80 ||| (r &&& 0x3F))]

/-- Go `getu4` on the four digits after `\u`: the 16-bit value, `none` when one of
them is not a hexadecimal digit. -/
def getu4 (h1 h2 h3 h4 : Byte) : Option Nat :=
  if url.ishex h1 && url.ishex h2 && url.ishex h3 && url.ishex h4 then
    some (hexVal h1 * 4096 + hexVal h2 * 256 + hexVal h3 * 16 + hexVal h4)
  else none

/-- Put bytes in front of the text of a scanned string. -/
def consOut (out : GoString) (r : Option (GoString × GoString)) : Option (GoString × GoString) :=
  r.map (fun x => (out ++ x.1, x.2))

/-- An escape after its backslash (`unquote`, on what the scanner accepts): the
bytes it stands for and the number of bytes it takes; `none` for a wrong
escape. A `\u` escape with a surrogate stands for one character together
with a second `\u` escape that completes the pair, and for U+FFFD alone. -/
def unquoteEscape : GoString → Option (GoString × Nat)
  | [] => none
  | c :: rest1 =>
    if c = 34 ∨ c = 92 ∨ c = 47 then some ([c], 1)         -- quote, backslash, slash
    else if c = 98 then some ([8], 1)                      -- \b
    else if c = 102 then some ([12], 1)                    -- \f
    else if c = 110 then some ([10], 1)                    -- \n
    else if c = 114 then some ([13], 1)                    -- \r
    else if c = 116 then some ([9], 1)                     -- \t
    else if c = 117 then                                   -- \u
      match rest1 with
      | h1 :: h2 :: h3 :: h4 :: rest2 =>
        match getu4 h1 h2 h3 h4 with
        | none => none
        | some rr =>
          if 0xD800 ≤ rr ∧ rr ≤ 0xDFFF then
            match rest2 with
            | b0 :: u0 :: g1 :: g2 :: g3 :: g4 :: _ =>
              match getu4 g1 g2 g3 g4 with
              | some rr1 =>
                if b0 = 92 ∧ u0 = 117 ∧ rr < 0xDC00 ∧ 0xDC00 ≤ rr1 ∧ rr1 ≤ 0xDFFF then
                  some (encodeRune ((rr - 0xD800) * 1024 + (rr1 - 0xDC00) + 0x10000), 11)
                else some ([0xEF, 0xBF, 0xBD], 5)
              | none => some ([0xEF, 0xBF, 0xBD], 5)
            | _ => some ([0xEF, 0xBF, 0xBD], 5)
          else some (encodeRune rr, 5)
      | _ => none
    else none

/-- The text of a string literal after its opening quote (`unquote`, on what the
scanner accepts): the unquoted text and what follows the closing quote.
Escapes are replaced, invalid UTF-8 becomes U+FFFD, a control character or a
wrong escape is a syntax error. `copy` counts the bytes still to copy of a
valid multi-byte character (decoding and encoding it again gives the same
bytes), `skip` the bytes still to drop of an escape. -/
def unquoteLoop : Nat → Nat → GoString → Option (GoString × GoString)
  | _, _, [] => none
  | copy + 1, skip, b :: rest => consOut [b] (unquoteLoop copy skip rest)
  | 0, skip + 1, _ :: rest => unquoteLoop 0 skip rest
  | 0, 0, b :: rest =>
    if b = 34 then some ([], rest)                         -- closing quote
    else if b = 92 then                                    -- backslash
      match unquoteEscape rest with
      | none => none
      | some (out, n) => consOut out (unquoteLoop 0 n rest)
    else if b.val < 0x20 then none
    else if b.val < 0x80 then consOut [b] (unquoteLoop 0 0 rest)
    else if runeSize (b :: rest) = 0 then consOut [0xEF, 0xBF, 0xBD] (unquoteLoop 0 0 rest)
    else consOut [b] (unquoteLoop (runeSize (b :: rest) - 1) 0 rest)

/-- The digits at the head of the text, and the rest. -/
def spanDigits : GoString → GoString × GoString
  | [] => ([], [])
  | c :: rest =>
    if url.isDigit c then ((c :: (spanDigits rest).1), (spanDigits rest).2) else ([], c :: rest)

/-- A number literal at the head of the text, and the rest: an optional minus, `0`
or digits that do not start with `0`, an optional fraction, an optional
exponent. -/
def scanNumber (s : GoString) : Option (GoString × GoString) :=
  let sign : GoString := if s.take 1 = ofAscii "-" then ofAscii "-" else []
  let s1 := s.drop sign.length
  let int : Option (GoString × GoString) :=
    match s1 with
    | 48 :: rest => some ([48], rest)
    | _ => if (spanDigits s1).1 = [] then none else some (spanDigits s1)
  match int with
  | none => none
  | some (intText, s2) =>
    let frac : Option (GoString × GoString) :=
      match s2 with
      | 46 :: rest =>
        if (spanDigits rest).1 = [] then none
        else some (46 :: (spanDigits rest).1, (spanDigits rest).2)
      | _ => some ([], s2)
    match frac with
    | none => none
    | some (fracText, s3) =>
      let exp : Option (GoString × GoString) :=
        match s3 with
        | e :: rest =>
          if e = 101 ∨ e = 69 then
            let esign : GoString :=
              if rest.take 1 = ofAscii "+" ∨ rest.take 1 = ofAscii "-" then rest.take 1 else []
            let digits := spanDigits (rest.drop esign.length)
            if digits.1 = [] then none else some (e :: esign ++ digits.1, digits.2)
          else some ([], s3)
        | [] => some ([], s3)
      match exp with
      | none => none
      | some (expText, s4) => some (sign ++ intText ++ fracText ++ expText, s4)

/-- The elements of an array after the first one, up to the closing bracket. -/
def scanArrayTail (scanV : GoString → Option (Value × GoString)) :
    Nat → GoString → Option (List Value × GoString)
  | 0, _ => none
  | n + 1, s =>
    match skipSpace s with
    | 93 :: rest => some ([], rest)                        -- ']'
    | 44 :: rest =>                                        -- ','
      match scanV rest with
      | some (v, rest1) => (scanArrayTail scanV n rest1).map (fun r => (v :: r.1, r.2))
      | none => none
    | _ => none

/-- An array after its opening bracket. -/
def scanArray (scanV : GoString → Option (Value × GoString)) (s : GoString) :
    Option (List Value × GoString) :=
  match skipSpace s with
  | 93 :: rest => some ([], rest)
  | _ =>
    match scanV s with
    | some (v, rest1) =>
      (scanArrayTail scanV (rest1.length + 1) rest1).map (fun r => (v :: r.1, r.2))
    | none => none

/-- One member of an object, `"key": value`. -/
def scanMember (scanV : GoString → Option (Value × GoString)) (s : GoString) :
    Option ((GoString × Value) × GoString) :=
  match skipSpace s with
  | 34 :: rest =>                                          -- '"'
    match unquoteLoop 0 0 rest with
    | some (key, rest1) =>
      match skipSpace rest1 with
      | 58 :: rest2 =>                                     -- ':'
        match scanV rest2 with
        | some (v, rest3) => some ((key, v), rest3)
        | none => none
      | _ => none
    | none => none
  | _ => none

/-- The members of an object after the first one, up to the closing brace. -/
def scanObjectTail (scanV : GoString → Option (Value × GoString)) :
    Nat → GoString → Option (List (GoString × Value) × GoString)
  | 0, _ => none
  | n + 1, s =>
    match skipSpace s with
    | 125 :: rest => some ([], rest)                       -- '}'
    | 44 :: rest =>                                        -- ','
      match scanMember scanV rest with
      | some (m, rest1) => (scanObjectTail scanV n rest1).map (fun r => (m :: r.1, r.2))
      | none => none
    | _ => none

/-- An object after its opening brace. -/
def scanObject (scanV : GoString → Option (Value × GoString)) (s : GoString) :
    Option (List (GoString × Value) × GoString) :=
  match skipSpace s with
  | 125 :: rest => some ([], rest)
  | _ =>
    match scanMember scanV s with
    | some (m, rest1) =>
      (scanObjectTail scanV (rest1.length + 1) rest1).map (fun r => (m :: r.1, r.2))
    | none => none

/-- The JSON value at the head of the text, after white space, and the text that
follows it; `depth` is the number of levels of nesting still allowed. -/
def scanValue : Nat → GoString → Option (Value × GoString)
  | depth, s =>
    match skipSpace s with
    | [] => none
    | c :: rest =>
      if c = 123 then                                      -- '{'
        match depth with
        | 0 => none                                        -- exceeded max depth
        | d + 1 => (scanObject (scanValue d) rest).map (fun r => (.object r.1, r.2))
      else if c = 91 then                                  -- '['
        match depth with
        | 0 => none
        | d + 1 => (scanArray (scanValue d) rest).map (fun r => (.array r.1, r.2))
      else if c = 34 then (unquoteLoop 0 0 rest).map (fun r => (.string r.1, r.2))
      else if (c :: rest).take 4 = ofAscii "true" then some (.bool true, rest.drop 3)
      else if (c :: rest).take 5 = ofAscii "false" then some (.bool false, rest.drop 4)
      else if (c :: rest).take 4 = ofAscii "null" then some (.null, rest.drop 3)
      else (scanNumber (c :: rest)).map (fun r => (.number r.1, r.2))

/-- The scanner's `maxNestingDepth`. -/
def maxNestingDepth : Nat := 10000

/-- What `json.NewDecoder(r).Decode` reads from a stream with the given content:
the first JSON value, `none` when the content does not start with one. -/
def readValue (content : GoString) : Option Value :=
  (scanValue maxNestingDepth content).map Prod.fst

end json

/-! ## `ParseString` -/

/-- `ParseString` parses the registry credential file. -/
def ParseString (ρ : RangeOrder) (s : GoString) : Outcome json.Error (List Auth) :=
  Parse ρ (json.readValue s)

/-! ## Well-formed text, in the words of the specification -/

/-- Valid UTF-8 (`utf8.Valid`): the text is a sequence of well-formed characters;
`pending` counts the bytes still to pass of the current character. -/
def validUTF8Loop : Nat → GoString → Bool
  | 0, [] => true
  | _ + 1, [] => false
  | pending + 1, _ :: rest => validUTF8Loop pending rest
  | 0, b :: rest =>
    json.runeSize (b :: rest) ≠ 0 && validUTF8Loop (json.runeSize (b :: rest) - 1) rest

/-- Valid UTF-8 text. -/
def validUTF8 (s : GoString) : Bool := validUTF8Loop 0 s

/-- The JSON object that the specification assigns to the header token: the key
`username` when the username is not empty, the key `password` when the
password is not empty, and no other key. -/
def credentialsObject (username password : GoString) : json.Value :=
  .object
    ((if username = [] then [] else [(ofAscii "username", .string username)]) ++
     (if password = [] then [] else [(ofAscii "password", .string password)]))

/-- A character of the URL-safe alphabet: `A`-`Z`, `a`-`z`, `0`-`9`, `-`, `_`. -/
def isURLAlphabet (c : Byte) : Bool :=
  (65 ≤ c.val && c.val ≤ 90) || (97 ≤ c.val && c.val ≤ 122) ||
    (48 ≤ c.val && c.val ≤ 57) || c.val == 45 || c.val == 95

/-- The order of the entries in the output: strictly increasing keys. -/
def keyLt (e1 e2 : GoString × auths) : Prop := json.stringLt e1.1 e2.1 = true

/-- The entry that `Marshal` stores for a record. -/
def entryOf (r : Auth) : GoString × auths := (r.Address, ⟨encode r.Username r.Password⟩)

/-- The object member that the encoder writes for an entry of the mapping. -/
def memberOf (e : GoString × auths) : GoString × json.Value :=
  (e.1, .object [(ofAscii "auth", .string e.2.Auth)])

/-- The document that `json.Marshal` writes for a mapping: one member per entry, in
the order of the keys. -/
def documentOf (m : GoMap) : json.Value :=
  .object [(ofAscii "auths", .object ((json.sortByKey m).map memberOf))]

/-- What the encoder writes after the first entry of a mapping. -/
def entriesTail : GoMap → GoString
  | [] => []
  | e :: rest => 44 :: (json.encodeString e.1 ++ 58 :: (json.encodeAuths e.2 ++ entriesTail rest))

/-- A value that `Decode` accepts at the top level: an object or `null`. -/
def acceptedAtTop : json.Value → Bool
  | .object _ => true
  | .null => true
  | _ => false

/-! # Theorems -/

/-! ## Base64 facts -/

theorem and_0x3F (x : Nat) : x &&& 0x3F = x % 64 :=
  Nat.and_pow_two_sub_one_eq_mod x 6

theorem shiftLeft_or (x y k : Nat) (h : y < 2 ^ k) : (x <<< k) ||| y = x * 2 ^ k + y := by
  rw [Nat.shiftLeft_eq, Nat.mul_comm, ← Nat.mul_add_lt_is_or h]

theorem encode_val (a b c : Nat) (hb : b < 256) (hc : c < 256) :
    (a <<< 16) ||| (b <<< 8) ||| c = a * 65536 + b * 256 + c := by
  have h1 : (a <<< 16) ||| (b <<< 8) = (a * 256 + b) <<< 8 := by
    rw [shiftLeft_or a (b <<< 8) 16 (by rw [Nat.shiftLeft_eq]; omega)]
    simp only [Nat.shiftLeft_eq]; omega
  rw [h1, shiftLeft_or _ c 8 (by omega)]; omega

theorem decode_val (s0 s1 s2 s3 : Nat) (h1 : s1 < 64) (h2 : s2 < 64) (h3 : s3 < 64) :
    (s0 <<< 18) ||| (s1 <<< 12) ||| (s2 <<< 6) ||| s3
      = s0 * 262144 + s1 * 4096 + s2 * 64 + s3 := by
  have e1 : (s0 <<< 18) ||| (s1 <<< 12) = (s0 * 64 + s1) <<< 12 := by
    rw [shiftLeft_or s0 (s1 <<< 12) 18 (by rw [Nat.shiftLeft_eq]; omega)]
    simp only [Nat.shiftLeft_eq]; omega
  have e2 : ((s0 * 64 + s1) <<< 12) ||| (s2 <<< 6) = ((s0 * 64 + s1) * 64 + s2) <<< 6 := by
    rw [shiftLeft_or _ (s2 <<< 6) 12 (by rw [Nat.shiftLeft_eq]; omega)]
    simp only [Nat.shiftLeft_eq]; omega
  rw [e1, e2, shiftLeft_or _ s3 6 (by omega)]; omega

theorem decodeMap_encodeChar (i : Nat) (h : i < 64) : decodeMap (encodeChar i) = i := by
  have key : ∀ j : Fin 64, decodeMap (encodeChar j.val) = j.val := by decide
  exact key ⟨i, h⟩

theorem decodeMap_lt_or (c : Byte) : decodeMap c < 64 ∨ decodeMap c = 0xff := by
  unfold decodeMap; split <;> simp_all

theorem quantumBytes_4 (a b c : Byte) :
    quantumBytes
      [((((a.val <<< 16) ||| (b.val <<< 8) ||| c.val) >>> 18) &&& 0x3F),
       ((((a.val <<< 16) ||| (b.val <<< 8) ||| c.val) >>> 12) &&& 0x3F),
       ((((a.val <<< 16) ||| (b.val <<< 8) ||| c.val) >>> 6) &&& 0x3F),
       (((a.val <<< 16) ||| (b.val <<< 8) ||| c.val) &&& 0x3F)] 4 = [a, b, c] := by
  have ha := a.isLt
  have hb := b.isLt
  have hc := c.isLt
  simp only [quantumBytes, List.getD_cons_zero, List.getD_cons_succ, and_0x3F,
    encode_val a.val b.val c.val hb hc, Nat.shiftRight_eq_div_pow]
  rw [decode_val _ _ _ _ (Nat.mod_lt _ (by norm_num)) (Nat.mod_lt _ (by norm_num))
    (Nat.mod_lt _ (by norm_num))]
  simp only [List.take, List.cons.injEq, and_true]
  refine ⟨?_, ?_, ?_⟩ <;> apply Fin.ext <;> simp only [Fin.ofNat] <;> omega

theorem decodeLoop_quad (s0 s1 s2 s3 : Nat) (h0 : s0 < 64) (h1 : s1 < 64) (h2 : s2 < 64)
    (h3 : s3 < 64) (tail : GoString) :
    decodeLoop (encodeChar s0 :: encodeChar s1 :: encodeChar s2 :: encodeChar s3 :: tail) []
      = (decodeLoop tail []).map (fun tl => quantumBytes [s0, s1, s2, s3] 4 ++ tl) := by
  have n0 : s0 ≠ 255 := by omega
  have n1 : s1 ≠ 255 := by omega
  have n2 : s2 ≠ 255 := by omega
  have n3 : s3 ≠ 255 := by omega
  simp [decodeLoop, decodeMap_encodeChar, h0, h1, h2, h3, n0, n1, n2, n3]

theorem decodeMap_StdPadding : decodeMap StdPadding = 0xff := by decide

theorem decodeLoop_pad1 (s0 s1 s2 : Nat) (h0 : s0 < 64) (h1 : s1 < 64) (h2 : s2 < 64) :
    decodeLoop [encodeChar s0, encodeChar s1, encodeChar s2, StdPadding] []
      = some (quantumBytes [s0, s1, s2] 3) := by
  have n0 : s0 ≠ 255 := by omega
  have n1 : s1 ≠ 255 := by omega
  have n2 : s2 ≠ 255 := by omega
  have p1 : StdPadding ≠ LF := by decide
  have p2 : StdPadding ≠ CR := by decide
  simp [decodeLoop, decodeMap_encodeChar, decodeMap_StdPadding, skipNewlines,
    h0, h1, h2, n0, n1, n2, p1, p2]

theorem decodeLoop_pad2 (s0 s1 : Nat) (h0 : s0 < 64) (h1 : s1 < 64) :
    decodeLoop [encodeChar s0, encodeChar s1, StdPadding, StdPadding] []
      = some (quantumBytes [s0, s1] 2) := by
  have n0 : s0 ≠ 255 := by omega
  have n1 : s1 ≠ 255 := by omega
  have p1 : StdPadding ≠ LF := by decide
  have p2 : StdPadding ≠ CR := by decide
  simp [decodeLoop, decodeMap_encodeChar, decodeMap_StdPadding, skipNewlines,
    h0, h1, n0, n1, p1, p2]

theorem quantumBytes_3 (a b : Byte) :
    quantumBytes
      [((((a.val <<< 16) ||| (b.val <<< 8)) >>> 18) &&& 0x3F),
       ((((a.val <<< 16) ||| (b.val <<< 8)) >>> 12) &&& 0x3F),
       ((((a.val <<< 16) ||| (b.val <<< 8)) >>> 6) &&& 0x3F)] 3 = [a, b] := by
  have ha := a.isLt
  have hb := b.isLt
  have hv : (a.val <<< 16) ||| (b.val <<< 8) = a.val * 65536 + b.val * 256 := by
    have := encode_val a.val b.val 0 hb (by norm_num)
    simpa using this
  simp only [quantumBytes, List.getD_cons_zero, List.getD_cons_succ, List.getD_nil, and_0x3F,
    hv, Nat.shiftRight_eq_div_pow]
  rw [decode_val _ _ _ _ (Nat.mod_lt _ (by norm_num)) (Nat.mod_lt _ (by norm_num))
    (by norm_num)]
  simp only [List.take, List.cons.injEq, and_true]
  refine ⟨?_, ?_⟩ <;> apply Fin.ext <;> simp only [Fin.ofNat] <;> omega

theorem quantumBytes_2 (a : Byte) :
    quantumBytes
      [(((a.val <<< 16) >>> 18) &&& 0x3F), (((a.val <<< 16) >>> 12) &&& 0x3F)] 2 = [a] := by
  have ha := a.isLt
  have hv : a.val <<< 16 = a.val * 65536 := by rw [Nat.shiftLeft_eq]
  simp only [quantumBytes, List.getD_cons_zero, List.getD_cons_succ, List.getD_nil, and_0x3F,
    hv, Nat.shiftRight_eq_div_pow]
  rw [decode_val _ _ _ _ (Nat.mod_lt _ (by norm_num)) (by norm_num) (by norm_num)]
  simp only [List.take, List.cons.injEq, and_true]
  apply Fin.ext
  simp only [Fin.ofNat]
  omega

theorem and_0x3F_lt (x : Nat) : x &&& 0x3F < 64 := by
  rw [and_0x3F]; exact Nat.mod_lt _ (by norm_num)

/-- Decoding undoes encoding: `DecodeString (EncodeToString bs)` succeeds with `bs`. -/
theorem DecodeString_EncodeToString : ∀ bs : GoString, DecodeString (EncodeToString bs) = some bs
  | a :: b :: c :: rest => by
    have ih := DecodeString_EncodeToString rest
    unfold DecodeString at ih ⊢
    simp only [EncodeToString]
    rw [decodeLoop_quad _ _ _ _ (and_0x3F_lt _) (and_0x3F_lt _) (and_0x3F_lt _) (and_0x3F_lt _),
      ih, quantumBytes_4]
    rfl
  | [a, b] => by
    unfold DecodeString
    simp only [EncodeToString]
    rw [decodeLoop_pad1 _ _ _ (and_0x3F_lt _) (and_0x3F_lt _) (and_0x3F_lt _), quantumBytes_3]
  | [a] => by
    unfold DecodeString
    simp only [EncodeToString]
    rw [decodeLoop_pad2 _ _ (and_0x3F_lt _) (and_0x3F_lt _), quantumBytes_2]
  | [] => rfl

/-! ## Facts about `cutByte` and `SplitN2` -/

theorem cutByte_of_not_mem (sep : Byte) :
    ∀ s : GoString, sep ∉ s → cutByte sep s = none
  | [], _ => rfl
  | c :: rest, h => by
    have hc : c ≠ sep := fun e => h (by simp [e])
    have hr : sep ∉ rest := fun e => h (by simp [e])
    simp [cutByte, hc, cutByte_of_not_mem sep rest hr]

theorem cutByte_append (sep : Byte) (b : GoString) :
    ∀ a : GoString, sep ∉ a → cutByte sep (a ++ sep :: b) = some (a, b)
  | [], _ => by simp [cutByte]
  | c :: rest, h => by
    have hc : c ≠ sep := fun e => h (by simp [e])
    have hr : sep ∉ rest := fun e => h (by simp [e])
    simp [cutByte, hc, cutByte_append sep b rest hr]

theorem cutByte_of_mem (sep : Byte) :
    ∀ s : GoString, sep ∈ s → ∃ a b, sep ∉ a ∧ s = a ++ sep :: b ∧ cutByte sep s = some (a, b)
  | [], h => by simp at h
  | c :: rest, h => by
    by_cases hc : c = sep
    · subst hc
      exact ⟨[], rest, by simp, by simp, by simp [cutByte]⟩
    · have hr : sep ∈ rest := by
        rcases List.mem_cons.1 h with e | e
        · exact absurd e.symm hc
        · exact e
      obtain ⟨a, b, ha, hs, hcut⟩ := cutByte_of_mem sep rest hr
      refine ⟨c :: a, b, ?_, ?_, ?_⟩
      · intro hm
        rcases List.mem_cons.1 hm with e | e
        · exact hc e.symm
        · exact ha e
      · simp [hs]
      · simp [cutByte, hc, hcut]

/-- With a colon-free `a`, `decode` of a token for `a ++ ":" ++ b` is `(a, b)`. -/
theorem decode_of_DecodeString_append (t a b : GoString) (h : colon ∉ a)
    (hd : DecodeString t = some (a ++ colon :: b)) : decode t = (a, b) := by
  simp [decode, hd, SplitN2, cutByte_append colon b a h]

/-- Without a colon the whole decoded text is the username. -/
theorem decode_of_DecodeString_no_colon (t d : GoString) (h : colon ∉ d)
    (hd : DecodeString t = some d) : decode t = (d, []) := by
  simp [decode, hd, SplitN2, cutByte_of_not_mem colon d h]

theorem decode_of_DecodeString_none (t : GoString) (hd : DecodeString t = none) :
    decode t = ([], []) := by
  simp [decode, hd]

theorem ofAscii_colon : ofAscii ":" = [colon] := by decide

theorem encode_eq (u p : GoString) : encode u p = EncodeToString (u ++ colon :: p) := by
  simp [encode, ofAscii_colon]

/-- C1. Token round trip: for every colon-free username `u` and every password
`p`, `decode (encode u p) = (u, p)`; and `encode "alice" "s3cr3t"` is
`"YWxpY2U6czNjcjN0"`, which decodes to `("alice", "s3cr3t")`. -/
theorem token_round_trip (u p : GoString) (h : colon ∉ u) :
    decode (encode u p) = (u, p) ∧
    encode (ofAscii "alice") (ofAscii "s3cr3t") = ofAscii "YWxpY2U6czNjcjN0" ∧
    decode (ofAscii "YWxpY2U6czNjcjN0") = (ofAscii "alice", ofAscii "s3cr3t") := by
  refine ⟨?_, by decide, by decide⟩
  exact decode_of_DecodeString_append _ u p h (by rw [encode_eq, DecodeString_EncodeToString])

theorem token_round_trip_witness :
    colon ∉ ofAscii "bob" ∧
    decode (encode (ofAscii "bob") (ofAscii "pa:ss")) = (ofAscii "bob", ofAscii "pa:ss") :=
  ⟨by decide, (token_round_trip (ofAscii "bob") (ofAscii "pa:ss") (by decide)).1⟩

/-- C7. Token decode splits on the first colon only: when the token decodes to a
text `d` with a colon, `decode` returns the colon-free text before the first
colon and everything after it; and for a username `u1 ++ ":" ++ u2` with `u1`
colon-free, `decode (encode u p) = (u1, u2 ++ ":" ++ p)`. -/
theorem decode_splits_at_first_colon (t d u1 u2 p : GoString)
    (hd : DecodeString t = some d) (hc : colon ∈ d) (hu : colon ∉ u1) :
    (∃ a b, decode t = (a, b) ∧ colon ∉ a ∧ d = a ++ ofAscii ":" ++ b) ∧
    decode (encode (u1 ++ ofAscii ":" ++ u2) p) = (u1, u2 ++ ofAscii ":" ++ p) := by
  constructor
  · obtain ⟨a, b, ha, hs, -⟩ := cutByte_of_mem colon d hc
    exact ⟨a, b, decode_of_DecodeString_append t a b ha (hs ▸ hd), ha,
      by simpa [ofAscii_colon] using hs⟩
  · apply decode_of_DecodeString_append _ u1 _ hu
    rw [encode_eq, DecodeString_EncodeToString]
    simp [ofAscii_colon]

theorem decode_splits_at_first_colon_witness :
    (∃ a b, decode (ofAscii "YTpiOmM=") = (a, b) ∧ colon ∉ a ∧
      ofAscii "a:b:c" = a ++ ofAscii ":" ++ b) ∧
    decode (encode (ofAscii "a" ++ ofAscii ":" ++ ofAscii "b") (ofAscii "c"))
      = (ofAscii "a", ofAscii "b" ++ ofAscii ":" ++ ofAscii "c") :=
  decode_splits_at_first_colon (ofAscii "YTpiOmM=") (ofAscii "a:b:c") (ofAscii "a")
    (ofAscii "b") (ofAscii "c") (by decide) (by decide) (by decide)

/-- C8. Token decode without a colon: when the token decodes to a colon-free text
`d`, `decode` returns `(d, "")`; the empty token decodes to `("", "")`. -/
theorem decode_without_colon (t d : GoString)
    (hd : DecodeString t = some d) (hc : colon ∉ d) :
    decode t = (d, []) ∧ DecodeString [] = some [] ∧ decode [] = ([], []) :=
  ⟨decode_of_DecodeString_no_colon t d hc hd, by decide, by decide⟩

theorem decode_without_colon_witness :
    DecodeString (ofAscii "YWxpY2U=") = some (ofAscii "alice") ∧
    colon ∉ ofAscii "alice" ∧
    decode (ofAscii "YWxpY2U=") = (ofAscii "alice", []) :=
  ⟨by decide, by decide,
    (decode_without_colon (ofAscii "YWxpY2U=") (ofAscii "alice") (by decide) (by decide)).1⟩

/-! ## What the decoder accepts -/

set_option maxRecDepth 100000 in
theorem isStdAlphabet_iff (c : Byte) : isStdAlphabet c = true ↔ decodeMap c ≠ 0xff := by
  revert c; decide

theorem stripNewlines_cons (c : Byte) (rest : GoString) :
    stripNewlines (c :: rest)
      = if c = LF ∨ c = CR then stripNewlines rest else c :: stripNewlines rest := by
  by_cases h : c = LF ∨ c = CR
  · have : ¬ (c ≠ LF ∧ c ≠ CR) := by tauto
    simp [stripNewlines, List.filter_cons, h, this]
  · have : c ≠ LF ∧ c ≠ CR := by tauto
    simp [stripNewlines, List.filter_cons, h, this]

theorem stripNewlines_skipNewlines :
    ∀ s : GoString, stripNewlines (skipNewlines s) = stripNewlines s
  | [] => rfl
  | c :: rest => by
    by_cases h : c = LF ∨ c = CR
    · simp only [skipNewlines, if_pos h, stripNewlines_cons c rest]
      exact stripNewlines_skipNewlines rest
    · simp only [skipNewlines, if_neg h]

theorem stripNewlines_of_skipNewlines_nil (s : GoString) (h : skipNewlines s = []) :
    stripNewlines s = [] := by
  rw [← stripNewlines_skipNewlines, h]; rfl

theorem stripNewlines_of_skipNewlines_cons (s rest : GoString) (c : Byte)
    (h : skipNewlines s = c :: rest) :
    stripNewlines s = stripNewlines (c :: rest) := by
  rw [← stripNewlines_skipNewlines, h]

theorem StdPadding_not_newline : ¬ (StdPadding = LF ∨ StdPadding = CR) := by decide

set_option maxRecDepth 100000 in
theorem isStdAlphabet_not_newline (c : Byte) (h : isStdAlphabet c = true) :
    ¬ (c = LF ∨ c = CR) := by
  revert c; decide

/-- Whatever the decoding loop accepts is, once newlines are dropped, valid
padded base64; `pre` are the characters already read for the current quantum. -/
theorem decodeLoop_valid : ∀ (s pre : GoString) (d : GoString),
    pre.length ≤ 3 → (∀ c ∈ pre, isStdAlphabet c = true) →
    decodeLoop s (pre.map decodeMap) = some d →
    validStdBase64 (pre ++ stripNewlines s) = true
  | [], pre, d, _, _, h => by
    rcases pre with _ | ⟨p0, pre⟩
    · rfl
    · simp [decodeLoop] at h
  | c :: rest, pre, d, hl, hp, h => by
    by_cases hc : decodeMap c ≠ 0xff
    · have hca : isStdAlphabet c = true := (isStdAlphabet_iff c).2 hc
      have hnl := isStdAlphabet_not_newline c hca
      rw [stripNewlines_cons, if_neg hnl]
      rcases pre with _ | ⟨p0, _ | ⟨p1, _ | ⟨p2, _ | ⟨p3, pre⟩⟩⟩⟩
      · simp only [decodeLoop, if_pos hc, List.map_nil, List.nil_append] at h
        have := decodeLoop_valid rest [c] d (by simp) (by simpa using hca) (by simpa using h)
        simpa using this
      · simp only [decodeLoop, if_pos hc, List.map_cons, List.map_nil] at h
        have := decodeLoop_valid rest [p0, c] d (by simp)
          (by intro x hx; simp at hx; rcases hx with e | e <;> subst e
              · exact hp _ (by simp)
              · exact hca)
          (by simpa using h)
        simpa using this
      · simp only [decodeLoop, if_pos hc, List.map_cons, List.map_nil] at h
        have := decodeLoop_valid rest [p0, p1, c] d (by simp)
          (by intro x hx; simp at hx; rcases hx with e | e | e <;> subst e
              · exact hp _ (by simp)
              · exact hp _ (by simp)
              · exact hca)
          (by simpa using h)
        simpa using this
      · simp only [decodeLoop, if_pos hc, List.map_cons, List.map_nil] at h
        cases htl : decodeLoop rest [] with
        | none => simp [htl] at h
        | some tl =>
        have := decodeLoop_valid rest [] tl (by simp) (by simp) (by simpa using htl)
        have h0 := hp p0 (by simp)
        have h1 := hp p1 (by simp)
        have h2 := hp p2 (by simp)
        simp only [List.nil_append] at this
        simp [validStdBase64, h0, h1, h2, hca, this]
      · simp at hl
    · have hc2 : decodeMap c = 0xff := by simpa using hc
      by_cases hnl : c = LF ∨ c = CR
      · rw [stripNewlines_cons, if_pos hnl]
        simp only [decodeLoop, hc2, ne_eq, not_true_eq_false, if_false, if_pos hnl] at h
        exact decodeLoop_valid rest pre d hl hp h
      · by_cases hpad : c = StdPadding
        · subst hpad
          rw [stripNewlines_cons, if_neg hnl]
          rcases pre with _ | ⟨p0, _ | ⟨p1, _ | ⟨p2, _ | ⟨p3, pre⟩⟩⟩⟩
          · simp [decodeLoop, hc2, hnl] at h
          · simp [decodeLoop, hc2, hnl] at h
          · simp only [decodeLoop, hc2, ne_eq, not_true_eq_false, if_false, if_neg hnl,
              List.map_cons, List.map_nil] at h
            have h0 := hp p0 (by simp)
            have h1 := hp p1 (by simp)
            cases hs : skipNewlines rest with
            | nil => simp [hs] at h
            | cons c2 rest2 =>
              simp only [hs] at h
              by_cases hc2p : c2 = StdPadding
              · subst hc2p
                by_cases hg : skipNewlines rest2 = []
                · have e1 := stripNewlines_of_skipNewlines_cons rest rest2 _ hs
                  rw [stripNewlines_cons, if_neg StdPadding_not_newline,
                    stripNewlines_of_skipNewlines_nil rest2 hg] at e1
                  simp [validStdBase64, h0, h1, e1]
                · simp [hg] at h
              · simp [hc2p] at h
          · simp only [decodeLoop, hc2, ne_eq, not_true_eq_false, if_false, if_neg hnl,
              List.map_cons, List.map_nil] at h
            have h0 := hp p0 (by simp)
            have h1 := hp p1 (by simp)
            have h2 := hp p2 (by simp)
            by_cases hg : skipNewlines rest = []
            · simp [validStdBase64, h0, h1, h2, stripNewlines_of_skipNewlines_nil rest hg]
            · simp [hg] at h
          · simp at hl
        · simp [decodeLoop, hc2, hnl, hpad] at h

/-- `DecodeString` fails on every text that is not valid padded base64 after its
newlines are dropped. -/
theorem DecodeString_none_of_invalid (s : GoString)
    (h : validStdBase64 (stripNewlines s) = false) : DecodeString s = none := by
  cases hd : DecodeString s with
  | none => rfl
  | some d =>
    have := decodeLoop_valid s [] d (by simp) (by simp) (by simpa [DecodeString] using hd)
    simp [h] at this

/-- C4 (as stated, refuted). The text `"YQ==\n"` is not valid padded base64 (it
holds a newline), yet `decode` returns the username `"a"` for it: the decoder
skips `'\r'` and `'\n'`. -/
theorem decode_invalid_token_counterexample :
    validStdBase64 (ofAscii "YQ==\n") = false ∧
    decode (ofAscii "YQ==\n") = (ofAscii "a", []) ∧
    decode (ofAscii "YQ==\n") ≠ ([], []) := by
  decide

/-- C4 (amended). Malformed token degrades to empty credentials: for every text
that, with its `'\r'` and `'\n'` characters dropped, is not valid padded
base64, `DecodeString` fails and `decode` returns `("", "")`; so it does for
`"not-valid-base64!!"`. -/
theorem decode_malformed_token (s : GoString)
    (h : validStdBase64 (stripNewlines s) = false) :
    DecodeString s = none ∧ decode s = ([], []) ∧
    decode (ofAscii "not-valid-base64!!") = ([], []) :=
  ⟨DecodeString_none_of_invalid s h,
    decode_of_DecodeString_none s (DecodeString_none_of_invalid s h), by decide⟩

theorem decode_malformed_token_witness :
    validStdBase64 (stripNewlines (ofAscii "dXNlcjpwYXNz\n=")) = false ∧
    decode (ofAscii "dXNlcjpwYXNz\n=") = ([], []) :=
  ⟨by decide, (decode_malformed_token (ofAscii "dXNlcjpwYXNz\n=") (by decide)).2.1⟩

/-! ## Host normalisation -/

/-- Where `url.Parse` succeeds, `hostname` returns what the specification asks for. -/
theorem hostname_of_Parse_some (s : GoString) (uri : url.URL) (h : url.Parse s = some uri) :
    hostname s = .returns (if uri.Host ≠ [] then uri.Host else s) ∧
    hostname s = .returns (hostNormalize s) := by
  constructor
  · simp only [hostname, h]; split <;> rfl
  · simp only [hostname, hostNormalize, h]; split <;> rfl

/-- Where `url.Parse` fails, `hostname` panics. -/
theorem hostname_of_Parse_none (s : GoString) (h : url.Parse s = none) :
    hostname s = .panics := by
  simp only [hostname, h]

theorem hostname_returns_iff (s : GoString) :
    (∃ v, hostname s = .returns v) ↔ url.Parse s ≠ none := by
  cases h : url.Parse s with
  | none => simp [hostname_of_Parse_none s h]
  | some uri => simp [(hostname_of_Parse_some s uri h).2]

/-- C2 (the code departs from the claim). `url.Parse` rejects `"192.168.1.1:5000"`
(first path segment with a colon) and `"%zz"` (invalid escape); on both
`hostname` panics instead of returning its argument. -/
theorem hostname_panics_on_rejected_key :
    url.Parse (ofAscii "192.168.1.1:5000") = none ∧
    hostname (ofAscii "192.168.1.1:5000") = .panics ∧
    hostname (ofAscii "192.168.1.1:5000") ≠ .returns (ofAscii "192.168.1.1:5000") ∧
    url.Parse (ofAscii "%zz") = none ∧
    hostname (ofAscii "%zz") = .panics := by
  decide

/-- C6 (the code departs from the claim). The key `"127.0.0.1:5000/v2/"` does not
parse as a URL, so the claim asks for the key unchanged, yet `hostname`
panics; the two examples of the claim hold. -/
theorem hostname_otherwise_branch_panics :
    url.Parse (ofAscii "127.0.0.1:5000/v2/") = none ∧
    hostNormalize (ofAscii "127.0.0.1:5000/v2/") = ofAscii "127.0.0.1:5000/v2/" ∧
    hostname (ofAscii "127.0.0.1:5000/v2/") = .panics ∧
    hostname (ofAscii "https://index.docker.io/v1/") = .returns (ofAscii "index.docker.io") ∧
    hostname (ofAscii "myregistry.local") = .returns (ofAscii "myregistry.local") := by
  decide

/-! ## Go maps -/

/-- The keys of a map. -/
theorem mapSet_keys (m : GoMap) (k : GoString) (v : auths) (k1 : GoString) :
    k1 ∈ (mapSet m k v).map Prod.fst ↔ k1 = k ∨ k1 ∈ m.map Prod.fst := by
  induction m with
  | nil => simp [mapSet]
  | cons e rest ih =>
    obtain ⟨k0, v0⟩ := e
    by_cases h : k0 = k
    · subst h
      simp [mapSet]
    · simp only [mapSet, if_neg h, List.map_cons, List.mem_cons, ih]
      tauto

theorem mapSet_of_not_mem (m : GoMap) (k : GoString) (v : auths)
    (h : k ∉ m.map Prod.fst) : mapSet m k v = m ++ [(k, v)] := by
  induction m with
  | nil => rfl
  | cons e rest ih =>
    obtain ⟨k0, v0⟩ := e
    have h0 : k0 ≠ k := fun e => h (by simp [e])
    have hr : k ∉ rest.map Prod.fst := fun e => h (by simp [e])
    simp [mapSet, h0, ih hr]

theorem mapSet_nodup (m : GoMap) (k : GoString) (v : auths)
    (h : (m.map Prod.fst).Nodup) : ((mapSet m k v).map Prod.fst).Nodup := by
  induction m with
  | nil => simp [mapSet]
  | cons e rest ih =>
    obtain ⟨k0, v0⟩ := e
    simp only [List.map_cons, List.nodup_cons] at h
    by_cases h0 : k0 = k
    · subst h0
      simpa [mapSet] using h
    · simp only [mapSet, if_neg h0, List.map_cons, List.nodup_cons, mapSet_keys]
      exact ⟨by intro hh; rcases hh with e | e; exact h0 e; exact h.1 e, ih h.2⟩

theorem filter_key_of_not_mem (m : GoMap) (k : GoString) (h : k ∉ m.map Prod.fst) :
    m.filter (fun e => e.1 = k) = [] := by
  rw [List.filter_eq_nil_iff]
  intro e he hk
  exact h (List.mem_map.2 ⟨e, he, by simpa using hk⟩)

/-- After `m[k] = v` the map has exactly one entry under `k`, and it holds `v`. -/
theorem mapSet_filter_same (m : GoMap) (k : GoString) (v : auths)
    (h : (m.map Prod.fst).Nodup) :
    (mapSet m k v).filter (fun e => e.1 = k) = [(k, v)] := by
  induction m with
  | nil => simp [mapSet]
  | cons e rest ih =>
    obtain ⟨k0, v0⟩ := e
    simp only [List.map_cons, List.nodup_cons] at h
    by_cases h0 : k0 = k
    · subst h0
      simp [mapSet, List.filter_cons, filter_key_of_not_mem rest k0 h.1]
    · simp [mapSet, h0, List.filter_cons, ih h.2]

/-- The assignment `m[k] = v` leaves the entries under other keys as they are. -/
theorem mapSet_filter_other (m : GoMap) (k k1 : GoString) (v : auths) (h : k ≠ k1) :
    (mapSet m k v).filter (fun e => e.1 = k1) = m.filter (fun e => e.1 = k1) := by
  induction m with
  | nil => simp [mapSet, List.filter_cons, h]
  | cons e rest ih =>
    obtain ⟨k0, v0⟩ := e
    by_cases h0 : k0 = k
    · subst h0
      simp [mapSet, List.filter_cons, h]
    · simp [mapSet, h0, List.filter_cons, ih]

/-- Every entry of the map after `m[k] = v` is the new one or an old one. -/
theorem mem_mapSet (m : GoMap) (k : GoString) (v : auths) (e : GoString × auths)
    (he : e ∈ mapSet m k v) : e = (k, v) ∨ e ∈ m := by
  induction m with
  | nil => simpa [mapSet] using he
  | cons e0 rest ih =>
    obtain ⟨k0, v0⟩ := e0
    by_cases h0 : k0 = k
    · subst h0
      simp only [mapSet, if_true, List.mem_cons] at he
      rcases he with e1 | e1
      · exact Or.inl e1
      · exact Or.inr (List.mem_cons_of_mem _ e1)
    · simp only [mapSet, if_neg h0, List.mem_cons] at he
      rcases he with e1 | e1
      · exact Or.inr (by simp [e1])
      · rcases ih e1 with e2 | e2
        · exact Or.inl e2
        · exact Or.inr (List.mem_cons_of_mem _ e2)

/-! ## `Marshal` -/

theorem MarshalLoop_append (l1 l2 : List Auth) (m : GoMap) :
    MarshalLoop (l1 ++ l2) m = MarshalLoop l2 (MarshalLoop l1 m) := by
  induction l1 generalizing m with
  | nil => rfl
  | cons item rest ih => simp [MarshalLoop, ih]

theorem MarshalLoop_keys (list : List Auth) (m : GoMap) (k : GoString) :
    k ∈ (MarshalLoop list m).map Prod.fst ↔
      k ∈ m.map Prod.fst ∨ k ∈ list.map Auth.Address := by
  induction list generalizing m with
  | nil => simp [MarshalLoop]
  | cons item rest ih =>
    simp only [MarshalLoop, ih, mapSet_keys, List.map_cons, List.mem_cons]
    tauto

theorem MarshalLoop_nodup (list : List Auth) (m : GoMap) (h : (m.map Prod.fst).Nodup) :
    ((MarshalLoop list m).map Prod.fst).Nodup := by
  induction list generalizing m with
  | nil => simpa [MarshalLoop] using h
  | cons item rest ih => exact ih _ (mapSet_nodup m _ _ h)

theorem MarshalLoop_mem (list : List Auth) (m : GoMap) (e : GoString × auths)
    (he : e ∈ MarshalLoop list m) :
    e ∈ m ∨ ∃ r ∈ list, r.Address = e.1 ∧ e.2.Auth = encode r.Username r.Password := by
  induction list generalizing m with
  | nil => exact Or.inl he
  | cons item rest ih =>
    rcases ih _ he with h1 | ⟨r, hr, h2⟩
    · rcases mem_mapSet m _ _ e h1 with h3 | h3
      · exact Or.inr ⟨item, by simp, by simp [h3], by simp [h3]⟩
      · exact Or.inl h3
    · exact Or.inr ⟨r, List.mem_cons_of_mem _ hr, h2⟩

theorem MarshalLoop_filter_other (list : List Auth) (m : GoMap) (a : GoString)
    (h : ∀ x ∈ list, x.Address ≠ a) :
    (MarshalLoop list m).filter (fun e => e.1 = a) = m.filter (fun e => e.1 = a) := by
  induction list generalizing m with
  | nil => rfl
  | cons item rest ih =>
    simp only [MarshalLoop]
    rw [ih _ (fun x hx => h x (List.mem_cons_of_mem _ hx)),
      mapSet_filter_other m _ a _ (h item (by simp))]

/-! ## `Parse` -/

/-- Where every visited key parses as a URL, the loop of `Parse` appends the
record of each entry, in the order of the visit. -/
theorem ParseLoop_returns (m : GoMap) (acc : List Auth)
    (h : ∀ e ∈ m, url.Parse e.1 ≠ none) :
    ParseLoop m acc = .returns (acc ++ m.map recordOf) := by
  induction m generalizing acc with
  | nil => simp [ParseLoop]
  | cons e rest ih =>
    obtain ⟨k, v⟩ := e
    have hk : url.Parse k ≠ none := h (k, v) (by simp)
    cases hp : url.Parse k with
    | none => exact absurd hp hk
    | some uri =>
      have hh := (hostname_of_Parse_some k uri hp).2
      simp only [ParseLoop, hh]
      rw [ih _ (fun e he => h e (List.mem_cons_of_mem _ he))]
      simp [recordOf]

/-- Where a visited key does not parse as a URL, the loop of `Parse` panics. -/
theorem ParseLoop_panics (m : GoMap) (acc : List Auth)
    (h : ∃ e ∈ m, url.Parse e.1 = none) : ParseLoop m acc = .panics := by
  induction m generalizing acc with
  | nil => simp at h
  | cons e rest ih =>
    obtain ⟨k, v⟩ := e
    cases hp : url.Parse k with
    | none => simp only [ParseLoop, hostname_of_Parse_none k hp]
    | some uri =>
      have hh := (hostname_of_Parse_some k uri hp).2
      simp only [ParseLoop, hh]
      apply ih
      obtain ⟨e, he, hn⟩ := h
      rcases List.mem_cons.1 he with e1 | e1
      · subst e1; simp [hp] at hn
      · exact ⟨e, e1, hn⟩

/-- One record per key: when the document decodes to `c` and every key of
`c.Auths` parses as a URL, `Parse` returns as many records as the mapping has
keys, and they are, up to order, the records of the entries. -/
theorem Parse_one_record_per_key (ρ : RangeOrder) (r : Option json.Value) (c : config)
    (hd : json.Decode r = .ok c) (hu : ∀ e ∈ c.Auths, url.Parse e.1 ≠ none) :
    ∃ rs, Parse ρ r = .returns rs ∧ rs.length = c.Auths.length ∧
      rs.Perm (c.Auths.map recordOf) := by
  refine ⟨(ρ.visit c.Auths).map recordOf, ?_, ?_, ?_⟩
  · simp only [Parse, hd]
    rw [ParseLoop_returns _ _ (fun e he => hu e ((ρ.perm c.Auths).mem_iff.1 he))]
    simp
  · simp [(ρ.perm c.Auths).length_eq]
  · exact (ρ.perm c.Auths).map recordOf

/-- When the document decodes to `c` and a key of `c.Auths` does not parse as a URL,
`Parse` panics. -/
theorem Parse_panics_of_rejected_key (ρ : RangeOrder) (r : Option json.Value) (c : config)
    (hd : json.Decode r = .ok c) (hu : ∃ e ∈ c.Auths, url.Parse e.1 = none) :
    Parse ρ r = .panics := by
  simp only [Parse, hd]
  apply ParseLoop_panics
  obtain ⟨e, he, hn⟩ := hu
  exact ⟨e, (ρ.perm c.Auths).mem_iff.2 he, hn⟩

theorem decodeAuths_entry (t : GoString) :
    json.decodeAuths (.object [(ofAscii "auth", .string t)]) = .ok ⟨t⟩ := by
  have hm : json.matchesField (ofAscii "auth") (ofAscii "auth") = true := by decide
  simp [json.decodeAuths, json.decodeAuthsFields, hm, json.decodeString]

theorem decodeMapEntries_document (entries : List (GoString × GoString)) (cur : GoMap)
    (h : (cur.map Prod.fst ++ entries.map Prod.fst).Nodup) :
    json.decodeMapEntries
        (entries.map (fun e => (e.1, json.Value.object [(ofAscii "auth", .string e.2)]))) cur
      = .ok (cur ++ entries.map (fun e => (e.1, ⟨e.2⟩))) := by
  induction entries generalizing cur with
  | nil => simp [json.decodeMapEntries]
  | cons e rest ih =>
    obtain ⟨k, t⟩ := e
    have hk : k ∉ cur.map Prod.fst := by
      intro hm
      have := List.nodup_append.1 h
      exact this.2.2 hm (by simp)
    simp only [List.map_cons, json.decodeMapEntries, decodeAuths_entry,
      mapSet_of_not_mem cur k ⟨t⟩ hk]
    rw [ih]
    · simp
    · have : cur.map Prod.fst ++ (k :: rest.map Prod.fst)
          = (cur ++ [(k, (⟨t⟩ : auths))]).map Prod.fst ++ rest.map Prod.fst := by simp
      rw [← this]
      simpa only [List.map_cons] using h

/-- A document of the expected shape with pairwise distinct keys decodes to the
mapping with one entry per key. -/
theorem Decode_document (entries : List (GoString × GoString))
    (h : (entries.map Prod.fst).Nodup) :
    json.Decode (some (document entries))
      = .ok ⟨entries.map (fun e => (e.1, ⟨e.2⟩))⟩ := by
  have hm : json.matchesField (ofAscii "auths") (ofAscii "auths") = true := by decide
  simp only [json.Decode, document, json.decodeConfigFields, hm, if_true, json.decodeAuthsMap]
  rw [decodeMapEntries_document entries [] (by simpa using h)]
  simp

/-- C3 (the code departs from the claim). The document
`{"auths": {"192.168.1.1:5000": {"auth": "dXNlcjpwYXNz"}}}` decodes without
error to a mapping with one key, the claim asks for one record, and `Parse`
panics in `hostname`, whatever the order of the visit. -/
theorem Parse_panics_on_rejected_key :
    json.Decode (some (document [(ofAscii "192.168.1.1:5000", ofAscii "dXNlcjpwYXNz")]))
      = .ok ⟨[(ofAscii "192.168.1.1:5000", ⟨ofAscii "dXNlcjpwYXNz"⟩)]⟩ ∧
    url.Parse (ofAscii "192.168.1.1:5000") = none ∧
    ∀ ρ : RangeOrder,
      Parse ρ (some (document [(ofAscii "192.168.1.1:5000", ofAscii "dXNlcjpwYXNz")]))
        = .panics := by
  have hd := Decode_document [(ofAscii "192.168.1.1:5000", ofAscii "dXNlcjpwYXNz")] (by simp)
  refine ⟨hd, by decide, fun ρ => ?_⟩
  exact Parse_panics_of_rejected_key ρ _ _ hd ⟨_, List.mem_singleton.2 rfl, by decide⟩

/-- C5 (as stated, refuted). The token `"YQ==\n"` is not valid padded base64, yet
the record that `Parse` returns for its entry has the username `"a"`, not the
empty one. -/
theorem Parse_malformed_entry_counterexample :
    validStdBase64 (ofAscii "YQ==\n") = false ∧
    ∀ ρ : RangeOrder,
      Parse ρ (some (document [(ofAscii "reg.io", ofAscii "YQ==\n")]))
        = .returns [⟨ofAscii "reg.io", ofAscii "a", []⟩] := by
  refine ⟨by decide, fun ρ => ?_⟩
  have hd := Decode_document [(ofAscii "reg.io", ofAscii "YQ==\n")] (by simp)
  simp only [Parse, hd]
  have hv : ρ.visit [(ofAscii "reg.io", (⟨ofAscii "YQ==\n"⟩ : auths))]
      = [(ofAscii "reg.io", ⟨ofAscii "YQ==\n"⟩)] :=
    List.perm_singleton.1 (ρ.perm _)
  simp only [List.map_cons, List.map_nil]
  rw [hv]
  decide

theorem recordOf_malformed (e : GoString × GoString) (h : wellFormedEntry e = false) :
    recordOf (e.1, ⟨e.2⟩) = ⟨hostNormalize e.1, [], []⟩ := by
  have hd := decode_of_DecodeString_none e.2 (DecodeString_none_of_invalid e.2 h)
  simp [recordOf, hd]

/-- C5 (amended). A malformed entry never aborts `Parse`: for every document of the
expected shape with pairwise distinct keys that all parse as URLs, `Parse`
returns no error; its records are, up to order, the records it returns for
the document without the malformed entries, together with one record with
empty username and empty password for each malformed entry. An entry is
malformed when its token, newlines dropped, is not valid padded base64. -/
theorem Parse_absorbs_malformed_entries (ρ ρ1 : RangeOrder)
    (entries : List (GoString × GoString))
    (hk : (entries.map Prod.fst).Nodup) (hu : ∀ e ∈ entries, url.Parse e.1 ≠ none) :
    ∃ rs rs1,
      Parse ρ (some (document entries)) = .returns rs ∧
      Parse ρ1 (some (document (entries.filter wellFormedEntry))) = .returns rs1 ∧
      rs.Perm (rs1 ++ (entries.filter (fun e => !wellFormedEntry e)).map
        (fun e => ⟨hostNormalize e.1, [], []⟩)) := by
  have hk1 : ((entries.filter wellFormedEntry).map Prod.fst).Nodup :=
    (List.filter_sublist entries).map Prod.fst |>.nodup hk
  obtain ⟨rs, h1, -, p1⟩ := Parse_one_record_per_key ρ _ _ (Decode_document entries hk)
    (by
      intro e he
      obtain ⟨e0, he0, rfl⟩ := List.mem_map.1 he
      exact hu e0 he0)
  obtain ⟨rs1, h2, -, p2⟩ := Parse_one_record_per_key ρ1 _ _
    (Decode_document (entries.filter wellFormedEntry) hk1)
    (by
      intro e he
      obtain ⟨e0, he0, rfl⟩ := List.mem_map.1 he
      exact hu e0 (List.mem_filter.1 he0).1)
  refine ⟨rs, rs1, h1, h2, ?_⟩
  have hbad : (entries.filter (fun e => !wellFormedEntry e)).map
        (fun e => (⟨hostNormalize e.1, [], []⟩ : Auth))
      = (entries.filter (fun e => !wellFormedEntry e)).map
        (fun e => recordOf (e.1, ⟨e.2⟩)) := by
    apply List.map_congr_left
    intro e he
    have hb : wellFormedEntry e = false := by simpa using (List.mem_filter.1 he).2
    exact (recordOf_malformed e hb).symm
  rw [hbad]
  simp only [List.map_map] at p1 p2
  refine p1.trans (List.Perm.trans ?_ (List.Perm.append_right _ p2.symm))
  have hsplit := (List.filter_append_perm wellFormedEntry entries).symm
  have := hsplit.map (fun e : GoString × GoString => recordOf (e.1, ⟨e.2⟩))
  simpa [Function.comp] using this

theorem Parse_absorbs_malformed_entries_witness :
    ([(ofAscii "https://reg.io/v1/", ofAscii "dXNlcjpwYXNz"),
      (ofAscii "bad.io", ofAscii "not-valid-base64!!")].map Prod.fst).Nodup ∧
    (∀ e ∈ [(ofAscii "https://reg.io/v1/", ofAscii "dXNlcjpwYXNz"),
      (ofAscii "bad.io", ofAscii "not-valid-base64!!")], url.Parse e.1 ≠ none) ∧
    ∃ rs rs1,
      Parse .reversed (some (document [(ofAscii "https://reg.io/v1/", ofAscii "dXNlcjpwYXNz"),
        (ofAscii "bad.io", ofAscii "not-valid-base64!!")])) = .returns rs ∧
      Parse .asListed (some (document
        ([(ofAscii "https://reg.io/v1/", ofAscii "dXNlcjpwYXNz"),
          (ofAscii "bad.io", ofAscii "not-valid-base64!!")].filter wellFormedEntry)))
        = .returns rs1 ∧
      rs.Perm (rs1 ++ ([(ofAscii "https://reg.io/v1/", ofAscii "dXNlcjpwYXNz"),
          (ofAscii "bad.io", ofAscii "not-valid-base64!!")].filter
            (fun e => !wellFormedEntry e)).map
        (fun e => ⟨hostNormalize e.1, [], []⟩)) :=
  ⟨by decide, by decide,
    Parse_absorbs_malformed_entries .reversed .asListed
      [(ofAscii "https://reg.io/v1/", ofAscii "dXNlcjpwYXNz"),
        (ofAscii "bad.io", ofAscii "not-valid-base64!!")] (by decide) (by decide)⟩

/-! ## The shape of an encoded token -/

theorem isStdAlphabet_encodeChar (i : Nat) (h : i < 64) : isStdAlphabet (encodeChar i) = true := by
  have key : ∀ j : Fin 64, isStdAlphabet (encodeChar j.val) = true := by decide
  exact key ⟨i, h⟩

/-- The output of `EncodeToString`: a body of alphabet characters followed by at
most two padding characters, `4 * ceil (n / 3)` characters in all. -/
theorem EncodeToString_shape : ∀ bs : GoString,
    (EncodeToString bs).length = 4 * ((bs.length + 2) / 3) ∧
    ∃ body pad, EncodeToString bs = body ++ pad ∧
      (∀ c ∈ body, isStdAlphabet c = true) ∧ pad.length ≤ 2 ∧ (∀ c ∈ pad, c = StdPadding)
  | a :: b :: c :: rest => by
    obtain ⟨hl, body, pad, he, hb, hp, hq⟩ := EncodeToString_shape rest
    constructor
    · simp only [EncodeToString, List.length_cons, hl]; omega
    · refine ⟨_ :: _ :: _ :: _ :: body, pad, by simp only [EncodeToString, he]; rfl, ?_, hp, hq⟩
      intro x hx
      simp only [List.mem_cons] at hx
      rcases hx with e | e | e | e | e
      · subst e; exact isStdAlphabet_encodeChar _ (and_0x3F_lt _)
      · subst e; exact isStdAlphabet_encodeChar _ (and_0x3F_lt _)
      · subst e; exact isStdAlphabet_encodeChar _ (and_0x3F_lt _)
      · subst e; exact isStdAlphabet_encodeChar _ (and_0x3F_lt _)
      · exact hb x e
  | [a, b] => by
    refine ⟨by simp [EncodeToString], [_, _, _], [StdPadding], by simp only [EncodeToString]; rfl,
      ?_, by simp, by simp⟩
    intro x hx
    simp only [List.mem_cons, List.mem_singleton, List.not_mem_nil, or_false] at hx
    rcases hx with e | e | e <;> subst e <;> exact isStdAlphabet_encodeChar _ (and_0x3F_lt _)
  | [a] => by
    refine ⟨by simp [EncodeToString], [_, _], [StdPadding, StdPadding],
      by simp only [EncodeToString]; rfl, ?_, by simp, by simp⟩
    intro x hx
    simp only [List.mem_cons, List.mem_singleton, List.not_mem_nil, or_false] at hx
    rcases hx with e | e <;> subst e <;> exact isStdAlphabet_encodeChar _ (and_0x3F_lt _)
  | [] => ⟨rfl, [], [], rfl, by simp, by simp, by simp⟩

/-- C16. Token encode emits standard padded base64 with no length limit: with
`n = len(u) + 1 + len(p)`, `encode u p` has `4 * ceil (n / 3)` characters, all
of them alphabet characters or `'='`; it is a body of alphabet characters
followed by at most two `'='`; it is never empty, and `encode "" ""` is
`"Og=="`. -/
theorem encode_shape (u p : GoString) :
    (encode u p).length = 4 * ((u.length + 1 + p.length + 2) / 3) ∧
    (∀ c ∈ encode u p, isStdAlphabet c = true ∨ c = StdPadding) ∧
    (∃ body pad, encode u p = body ++ pad ∧ (∀ c ∈ body, isStdAlphabet c = true) ∧
      pad.length ≤ 2 ∧ (∀ c ∈ pad, c = StdPadding)) ∧
    encode u p ≠ [] ∧
    encode [] [] = ofAscii "Og==" := by
  obtain ⟨hl, body, pad, he, hb, hp, hq⟩ := EncodeToString_shape (u ++ colon :: p)
  have hlen : (u ++ colon :: p).length = u.length + 1 + p.length := by simp; omega
  rw [hlen] at hl
  rw [← encode_eq] at hl he
  refine ⟨hl, ?_, ⟨body, pad, he, hb, hp, hq⟩, ?_, by decide⟩
  · intro c hc
    rw [he] at hc
    rcases List.mem_append.1 hc with h | h
    · exact Or.inl (hb c h)
    · exact Or.inr (hq c h)
  · intro h0
    rw [h0] at hl
    simp at hl
    omega

/-- C14. Empty list encodes to an empty, present auths mapping: `Marshal` of the
empty list returns, with no error, the bytes `{"auths":{}}`. -/
theorem Marshal_empty :
    Marshal [] = .returns (ofAscii "\x7b\"auths\":\x7b\x7d\x7d") := by
  decide

/-! ## The order of the encoder -/

theorem stringLt_irrefl : ∀ a : GoString, json.stringLt a a = false
  | [] => rfl
  | x :: xs => by simp [json.stringLt, stringLt_irrefl xs]

theorem stringLt_trans : ∀ a b c : GoString,
    json.stringLt a b = true → json.stringLt b c = true → json.stringLt a c = true
  | [], [], _, h, _ => by simp [json.stringLt] at h
  | [], _ :: _, [], _, h => by simp [json.stringLt] at h
  | [], _ :: _, _ :: _, _, _ => rfl
  | _ :: _, [], _, h, _ => by simp [json.stringLt] at h
  | _ :: _, _ :: _, [], _, h => by simp [json.stringLt] at h
  | x :: xs, y :: ys, z :: zs, h1, h2 => by
    simp only [json.stringLt, Bool.or_eq_true, decide_eq_true_eq, Bool.and_eq_true,
      beq_iff_eq] at h1 h2 ⊢
    rcases h1 with h1 | ⟨e1, h1⟩ <;> rcases h2 with h2 | ⟨e2, h2⟩
    · exact Or.inl (by omega)
    · subst e2; exact Or.inl h1
    · subst e1; exact Or.inl h2
    · subst e1; subst e2; exact Or.inr ⟨rfl, stringLt_trans xs ys zs h1 h2⟩

theorem stringLt_total : ∀ a b : GoString,
    a ≠ b → json.stringLt a b = false → json.stringLt b a = true
  | [], [], h, _ => absurd rfl h
  | [], _ :: _, _, h => by simp [json.stringLt] at h
  | _ :: _, [], _, _ => rfl
  | x :: xs, y :: ys, hne, h => by
    simp only [json.stringLt, Bool.or_eq_false_iff, decide_eq_false_iff_not, Bool.and_eq_false_iff,
      beq_eq_false_iff_ne, Bool.or_eq_true, decide_eq_true_eq, Bool.and_eq_true,
      beq_iff_eq] at h ⊢
    obtain ⟨h1, h2⟩ := h
    by_cases e : x = y
    · subst e
      rcases h2 with h2 | h2
      · exact absurd rfl h2
      · exact Or.inr ⟨rfl, stringLt_total xs ys (fun e2 => hne (by rw [e2])) h2⟩
    · refine Or.inl ?_
      have : x.val ≠ y.val := fun e2 => e (Fin.ext e2)
      omega


theorem perm_insertByKey (e : GoString × auths) :
    ∀ m : GoMap, (json.insertByKey e m).Perm (e :: m)
  | [] => List.Perm.refl _
  | e0 :: rest => by
    by_cases h : json.stringLt e0.1 e.1 = true
    · simp only [json.insertByKey, if_pos h]
      exact ((perm_insertByKey e rest).cons e0).trans (List.Perm.swap e e0 rest)
    · simp only [json.insertByKey, if_neg h]
      exact List.Perm.refl _

theorem perm_sortByKey : ∀ m : GoMap, (json.sortByKey m).Perm m
  | [] => List.Perm.refl _
  | e :: rest => by
    have ih := perm_sortByKey rest
    simp only [json.sortByKey, List.foldr_cons] at ih ⊢
    exact (perm_insertByKey e _).trans (ih.cons e)

theorem sorted_insertByKey (e : GoString × auths) :
    ∀ m : GoMap, m.Pairwise keyLt → (∀ x ∈ m, x.1 ≠ e.1) →
      (json.insertByKey e m).Pairwise keyLt
  | [], _, _ => by simp [json.insertByKey]
  | e0 :: rest, hs, hne => by
    rw [List.pairwise_cons] at hs
    by_cases h : json.stringLt e0.1 e.1 = true
    · simp only [json.insertByKey, if_pos h]
      rw [List.pairwise_cons]
      refine ⟨?_, sorted_insertByKey e rest hs.2 (fun x hx => hne x (List.mem_cons_of_mem _ hx))⟩
      intro x hx
      rcases List.mem_cons.1 ((perm_insertByKey e rest).mem_iff.1 hx) with e1 | e1
      · subst e1; exact h
      · exact hs.1 x e1
    · simp only [json.insertByKey, if_neg h]
      have h0 : keyLt e e0 :=
        stringLt_total e0.1 e.1 (hne e0 (by simp)) (by simpa using h)
      rw [List.pairwise_cons, List.pairwise_cons]
      refine ⟨?_, hs⟩
      intro x hx
      rcases List.mem_cons.1 hx with e1 | e1
      · subst e1; exact h0
      · exact stringLt_trans _ _ _ h0 (hs.1 x e1)

theorem sorted_sortByKey : ∀ m : GoMap, (m.map Prod.fst).Nodup →
    (json.sortByKey m).Pairwise keyLt
  | [], _ => by simp [json.sortByKey]
  | e :: rest, h => by
    simp only [List.map_cons, List.nodup_cons] at h
    have ih := sorted_sortByKey rest h.2
    simp only [json.sortByKey, List.foldr_cons] at ih ⊢
    apply sorted_insertByKey e _ ih
    intro x hx he
    have hx1 : x ∈ rest := (perm_sortByKey rest).mem_iff.1 hx
    exact h.1 (he ▸ List.mem_map_of_mem Prod.fst hx1)

/-- The written order depends on the entries only, not on their order in the map. -/
theorem sortByKey_eq_of_perm (m1 m2 : GoMap) (hp : m1.Perm m2)
    (hn : (m1.map Prod.fst).Nodup) : json.sortByKey m1 = json.sortByKey m2 := by
  have hn2 : (m2.map Prod.fst).Nodup := (hp.map Prod.fst).nodup_iff.1 hn
  haveI : IsAntisymm (GoString × auths) keyLt :=
    ⟨fun a b h1 h2 => by
      have := stringLt_trans _ _ _ h1 h2
      rw [stringLt_irrefl] at this
      exact absurd this (by simp)⟩
  exact List.eq_of_perm_of_sorted
    (((perm_sortByKey m1).trans hp).trans (perm_sortByKey m2).symm)
    (sorted_sortByKey m1 hn) (sorted_sortByKey m2 hn2)


/-- With pairwise distinct addresses, none of them in the map yet, the loop of
`Marshal` appends one entry per record. -/
theorem MarshalLoop_of_nodup (list : List Auth) (m : GoMap)
    (h : (m.map Prod.fst ++ list.map Auth.Address).Nodup) :
    MarshalLoop list m = m ++ list.map entryOf := by
  induction list generalizing m with
  | nil => simp [MarshalLoop]
  | cons item rest ih =>
    have hk : item.Address ∉ m.map Prod.fst := by
      intro hm
      exact (List.nodup_append.1 h).2.2 hm (by simp)
    simp only [MarshalLoop, mapSet_of_not_mem m _ _ hk]
    rw [ih]
    · simp [entryOf]
    · have : m.map Prod.fst ++ (item.Address :: rest.map Auth.Address)
          = (m ++ [(item.Address, (⟨encode item.Username item.Password⟩ : auths))]).map Prod.fst
            ++ rest.map Auth.Address := by simp
      rw [← this]
      simpa only [List.map_cons] using h

/-- C19. Marshal output does not depend on record order: for lists of records with
pairwise distinct addresses that are permutations of each other, `Marshal`
returns the same bytes. -/
theorem Marshal_order_independent (l1 l2 : List Auth) (hp : l1.Perm l2)
    (hn : (l1.map Auth.Address).Nodup) : Marshal l1 = Marshal l2 := by
  have hn2 : (l2.map Auth.Address).Nodup := (hp.map Auth.Address).nodup_iff.1 hn
  have e1 := MarshalLoop_of_nodup l1 [] (by simpa using hn)
  have e2 := MarshalLoop_of_nodup l2 [] (by simpa using hn2)
  have hk : ((l1.map entryOf).map Prod.fst).Nodup := by
    simpa [List.map_map, Function.comp, entryOf] using hn
  have hs := sortByKey_eq_of_perm _ _ (hp.map entryOf) hk
  simp only [Marshal, json.Marshal, e1, e2, List.nil_append, hs]

theorem Marshal_order_independent_witness :
    [(⟨ofAscii "b.io", ofAscii "u", ofAscii "p"⟩ : Auth), ⟨ofAscii "a.io", ofAscii "v", ofAscii "q"⟩].Perm
      [⟨ofAscii "a.io", ofAscii "v", ofAscii "q"⟩, ⟨ofAscii "b.io", ofAscii "u", ofAscii "p"⟩] ∧
    Marshal [⟨ofAscii "b.io", ofAscii "u", ofAscii "p"⟩, ⟨ofAscii "a.io", ofAscii "v", ofAscii "q"⟩]
      = Marshal [⟨ofAscii "a.io", ofAscii "v", ofAscii "q"⟩, ⟨ofAscii "b.io", ofAscii "u", ofAscii "p"⟩] :=
  ⟨List.Perm.swap _ _ _,
    Marshal_order_independent _ _ (List.Perm.swap _ _ _) (by decide)⟩

/-! ## Reading back what the string encoder writes -/

theorem consOut_nil (r : Option (GoString × GoString)) : json.consOut [] r = r := by
  cases r <;> simp [json.consOut]

theorem consOut_consOut (a b : GoString) (r : Option (GoString × GoString)) :
    json.consOut a (json.consOut b r) = json.consOut (a ++ b) r := by
  cases r <;> simp [json.consOut]

theorem consOut_some (a s t : GoString) : json.consOut a (some (s, t)) = some (a ++ s, t) := rfl

theorem encodeStringLoop_copy : ∀ (k : Nat) (pre rest : GoString), pre.length = k →
    json.encodeStringLoop k 0 (pre ++ rest) = pre ++ json.encodeStringLoop 0 0 rest
  | 0, [], _, _ => rfl
  | 0, _ :: _, _, h => by simp at h
  | k + 1, [], _, h => by simp at h
  | k + 1, b :: pre, rest, h => by
    have ih := encodeStringLoop_copy k pre rest (by simpa using h)
    show json.encodeStringLoop (k + 1) 0 (b :: (pre ++ rest)) = _
    simp only [json.encodeStringLoop, ih, List.cons_append]

theorem encodeStringLoop_skip : ∀ (k : Nat) (pre rest : GoString), pre.length = k →
    json.encodeStringLoop 0 k (pre ++ rest) = json.encodeStringLoop 0 0 rest
  | 0, [], _, _ => rfl
  | 0, _ :: _, _, h => by simp at h
  | k + 1, [], _, h => by simp at h
  | k + 1, b :: pre, rest, h => by
    have ih := encodeStringLoop_skip k pre rest (by simpa using h)
    show json.encodeStringLoop 0 (k + 1) (b :: (pre ++ rest)) = _
    simp only [json.encodeStringLoop, ih]

theorem unquoteLoop_copy : ∀ (k : Nat) (pre rest : GoString), pre.length = k →
    json.unquoteLoop k 0 (pre ++ rest) = json.consOut pre (json.unquoteLoop 0 0 rest)
  | 0, [], rest, _ => by rw [consOut_nil]; rfl
  | 0, _ :: _, _, h => by simp at h
  | k + 1, [], _, h => by simp at h
  | k + 1, b :: pre, rest, h => by
    have ih := unquoteLoop_copy k pre rest (by simpa using h)
    show json.unquoteLoop (k + 1) 0 (b :: (pre ++ rest)) = _
    simp only [json.unquoteLoop, ih, consOut_consOut, List.singleton_append]

theorem unquoteLoop_skip : ∀ (k : Nat) (pre rest : GoString), pre.length = k →
    json.unquoteLoop 0 k (pre ++ rest) = json.unquoteLoop 0 0 rest
  | 0, [], _, _ => rfl
  | 0, _ :: _, _, h => by simp at h
  | k + 1, [], _, h => by simp at h
  | k + 1, b :: pre, rest, h => by
    have ih := unquoteLoop_skip k pre rest (by simpa using h)
    show json.unquoteLoop 0 (k + 1) (b :: (pre ++ rest)) = _
    simp only [json.unquoteLoop, ih]

theorem validUTF8Loop_copy : ∀ (k : Nat) (s : GoString), validUTF8Loop k s = true →
    k ≤ s.length ∧ validUTF8Loop 0 (s.drop k) = true
  | 0, s, h => ⟨Nat.zero_le _, by simpa using h⟩
  | k + 1, [], h => by simp [validUTF8Loop] at h
  | k + 1, b :: rest, h => by
    simp only [validUTF8Loop] at h
    obtain ⟨h1, h2⟩ := validUTF8Loop_copy k rest h
    exact ⟨by simp; omega, by simpa using h2⟩

/-- The bytes of a well-formed character at the head of a text: the size of the
character depends on them only. -/
theorem runeSize_split (b : Byte) (rest : GoString) (h : json.runeSize (b :: rest) ≠ 0) :
    ∃ pre r, rest = pre ++ r ∧ pre.length = json.runeSize (b :: rest) - 1 ∧
      ∀ r1, json.runeSize (b :: (pre ++ r1)) = json.runeSize (b :: rest) := by
  by_cases c1 : b.val < 0x80
  · have e : ∀ r, json.runeSize (b :: r) = 1 := fun r => by simp [json.runeSize, c1]
    exact ⟨[], rest, rfl, by simp [e], fun r1 => by simp [e]⟩
  by_cases c2 : b.val < 0xC2
  · exact absurd (by simp [json.runeSize, c1, c2]) h
  by_cases c3 : b.val ≤ 0xDF
  · rcases rest with _ | ⟨s1, r⟩
    · exact absurd (by simp [json.runeSize, c1, c2, c3]) h
    · by_cases hs : 0x80 ≤ s1.val ∧ s1.val ≤ 0xBF
      · have e : ∀ r, json.runeSize (b :: s1 :: r) = 2 := fun r => by
          simp [json.runeSize, c1, c2, c3, hs]
        exact ⟨[s1], r, rfl, by simp [e], fun r1 => by simp [e]⟩
      · exact absurd (by simp [json.runeSize, c1, c2, c3, hs]) h
  by_cases c6 : b.val ≤ 0xEF
  · rcases rest with _ | ⟨s1, _ | ⟨s2, r⟩⟩
    · exact absurd (by simp [json.runeSize, c1, c2, c3, c6]) h
    · exact absurd (by simp [json.runeSize, c1, c2, c3, c6]) h
    · by_cases e : json.runeSize (b :: s1 :: s2 :: r) = 0
      · exact absurd e h
      · have e3 : ∀ r1, json.runeSize (b :: s1 :: s2 :: r1) = json.runeSize (b :: s1 :: s2 :: r) :=
          fun r1 => by simp only [json.runeSize, c1, c2, c3, c6, if_false, if_true]
        have e4 : json.runeSize (b :: s1 :: s2 :: r) = 3 := by
          simp only [json.runeSize] at e ⊢
          simp only [c1, c2, c3, c6, if_false, if_true] at e ⊢
          split_ifs at e ⊢ <;> first | rfl | exact absurd rfl e
        exact ⟨[s1, s2], r, rfl, by simp [e4], fun r1 => by simpa using e3 r1⟩
  · rcases rest with _ | ⟨s1, _ | ⟨s2, _ | ⟨s3, r⟩⟩⟩
    · exact absurd (by simp [json.runeSize, c1, c2, c3, c6]) h
    · exact absurd (by simp [json.runeSize, c1, c2, c3, c6]) h
    · exact absurd (by
        simp [json.runeSize, c1, c2, c3, c6]
        split_ifs <;> first | rfl | omega) h
    · by_cases e : json.runeSize (b :: s1 :: s2 :: s3 :: r) = 0
      · exact absurd e h
      · have e3 : ∀ r1, json.runeSize (b :: s1 :: s2 :: s3 :: r1)
            = json.runeSize (b :: s1 :: s2 :: s3 :: r) :=
          fun r1 => by simp only [json.runeSize]
        have e4 : json.runeSize (b :: s1 :: s2 :: s3 :: r) = 4 := by
          simp only [json.runeSize] at e ⊢
          simp only [c1, c2, c3, c6, if_false, if_true] at e ⊢
          split_ifs at e ⊢ <;> first | rfl | omega
        exact ⟨[s1, s2, s3], r, rfl, by simp [e4], fun r1 => by simpa using e3 r1⟩

set_option maxRecDepth 100000 in
theorem escapeByte_facts (b : Byte) (h1 : b.val < 0x80) (h2 : json.htmlSafeSet b = false)
    (h3 : ¬ (b = 92 ∨ b = 34)) (h4 : b ≠ LF) (h5 : b ≠ CR) (h6 : b ≠ 9) :
    json.getu4 48 48 (json.hexDigit (b.val >>> 4)) (json.hexDigit (b.val &&& 0xF)) = some b.val ∧
    ¬ (0xD800 ≤ b.val ∧ b.val ≤ 0xDFFF) ∧ json.encodeRune b.val = [b] := by
  revert b; decide

set_option maxRecDepth 100000 in
theorem htmlSafeSet_facts (b : Byte) (h : json.htmlSafeSet b = true) :
    b ≠ 34 ∧ b ≠ 92 ∧ ¬ b.val < 0x20 := by
  revert b; decide

/-- The scanner reads an escaped byte back as the byte. -/
theorem unquoteLoop_escapeByte (b : Byte) (X : GoString) (h1 : b.val < 0x80)
    (h2 : json.htmlSafeSet b = false) :
    json.unquoteLoop 0 0 (json.escapeByte b ++ X) = json.consOut [b] (json.unquoteLoop 0 0 X) := by
  have e92 : ((92 : Byte) = 34) = False := by decide
  by_cases c1 : b = 92 ∨ b = 34
  · have hc : b = 34 ∨ b = 92 ∨ b = 47 := by tauto
    simp only [json.escapeByte, if_pos c1, List.cons_append, List.nil_append, json.unquoteLoop,
      e92, if_false, if_true, json.unquoteEscape, if_pos hc]
  by_cases c2 : b = LF
  · subst c2
    simp only [json.escapeByte, if_neg c1]
    rfl
  by_cases c3 : b = CR
  · subst c3
    simp only [json.escapeByte, if_neg c1]
    rfl
  by_cases c4 : b = 9
  · subst c4
    simp only [json.escapeByte, if_neg c1]
    rfl
  · obtain ⟨g1, g2, g3⟩ := escapeByte_facts b h1 h2 c1 c2 c3 c4
    have hlit : ofAscii "\\u00" = [92, 117, 48, 48] := by decide
    simp only [json.escapeByte, if_neg c1, if_neg c2, if_neg c3, if_neg c4, hlit,
      List.cons_append, List.nil_append]
    have hesc : json.unquoteEscape (117 :: 48 :: 48 :: json.hexDigit (b.val >>> 4) ::
        json.hexDigit (b.val &&& 0xF) :: X) = some ([b], 5) := by
      have d1 : ¬ ((117 : Byte) = 34 ∨ (117 : Byte) = 92 ∨ (117 : Byte) = 47) := by decide
      have d2 : ¬ (117 : Byte) = 98 := by decide
      have d3 : ¬ (117 : Byte) = 102 := by decide
      have d4 : ¬ (117 : Byte) = 110 := by decide
      have d5 : ¬ (117 : Byte) = 114 := by decide
      have d6 : ¬ (117 : Byte) = 116 := by decide
      simp only [json.unquoteEscape, if_neg d1, if_neg d2, if_neg d3, if_neg d4, if_neg d5,
        if_neg d6, if_true, g1, if_neg g2, g3]
    simp only [json.unquoteLoop, e92, if_false, if_true, hesc]

/-- The scanner reads the escape of U+2028 or U+2029 back as the character. -/
theorem unquoteLoop_lineSeparator (d : Byte) (hd : d = 56 ∨ d = 57) (X : GoString) :
    json.unquoteLoop 0 0 (92 :: 117 :: 50 :: 48 :: 50 :: d :: X)
      = json.consOut [0xE2, 0x80, if d = 56 then 0xA8 else 0xA9] (json.unquoteLoop 0 0 X) := by
  have e92 : ((92 : Byte) = 34) = False := by decide
  have hesc : json.unquoteEscape (117 :: 50 :: 48 :: 50 :: d :: X)
      = some ([0xE2, 0x80, if d = 56 then 0xA8 else 0xA9], 5) := by
    rcases hd with e | e <;> subst e <;> rfl
  simp only [json.unquoteLoop, e92, if_false, if_true, hesc]

/-- Reading back the text of a string: the scanner returns a valid UTF-8 text as
it was before the encoder wrote it. -/
theorem unquoteLoop_encodeStringLoop : ∀ (n : Nat) (s tail : GoString), s.length ≤ n →
    validUTF8 s = true →
    json.unquoteLoop 0 0 (json.encodeStringLoop 0 0 s ++ 34 :: tail) = some (s, tail)
  | _, [], tail, _, _ => by simp [json.encodeStringLoop, json.unquoteLoop]
  | 0, _ :: _, _, h, _ => by simp at h
  | n + 1, b :: rest, tail, hl, hv => by
    have hl1 : rest.length ≤ n := by simpa using hl
    simp only [validUTF8, validUTF8Loop, Bool.and_eq_true, decide_eq_true_eq] at hv
    obtain ⟨hr, hv2⟩ := hv
    by_cases c1 : b.val < 0x80
    · have e1 : json.runeSize (b :: rest) = 1 := by simp [json.runeSize, c1]
      rw [e1] at hv2
      have ih := unquoteLoop_encodeStringLoop n rest tail hl1 hv2
      by_cases c2 : json.htmlSafeSet b = true
      · obtain ⟨f1, f2, f3⟩ := htmlSafeSet_facts b c2
        simp only [json.encodeStringLoop, if_pos c1, if_pos c2, List.cons_append,
          json.unquoteLoop, if_neg f1, if_neg f2, if_neg f3, ih, consOut_some,
          List.singleton_append, List.nil_append]
      · have c2f : json.htmlSafeSet b = false := by simpa using c2
        simp only [json.encodeStringLoop, if_pos c1, c2f, Bool.false_eq_true, if_false,
          List.append_assoc]
        rw [unquoteLoop_escapeByte b _ c1 c2f, ih]
        rfl
    · have sep : ∀ (x : Byte) (hx : x = 0xA8 ∨ x = 0xA9),
          (b :: rest).take 3 = [0xE2, 0x80, x] →
          json.unquoteLoop 0 0 (json.encodeStringLoop 0 0 (b :: rest) ++ 34 :: tail)
            = some (b :: rest, tail) := by
        intro x hx c3
        obtain ⟨r1, hb, hrest⟩ : ∃ r1, b = 0xE2 ∧ rest = 0x80 :: x :: r1 := by
          rcases rest with _ | ⟨s1, _ | ⟨s2, r1⟩⟩
          · simp at c3
          · simp at c3
          · simp only [List.take, List.cons.injEq, and_true] at c3
            exact ⟨r1, c3.1, by rw [c3.2.1, c3.2.2]⟩
        subst hb hrest
        have e3 : json.runeSize (0xE2 :: 0x80 :: x :: r1) = 3 := by
          rcases hx with e | e <;> subst e <;> rfl
        rw [e3] at hv2
        have hv3 : validUTF8 r1 = true := by simpa [validUTF8Loop, validUTF8] using hv2
        have ih := unquoteLoop_encodeStringLoop n r1 tail (by simp at hl1; omega) hv3
        have henc : json.encodeStringLoop 0 0 (0xE2 :: 0x80 :: x :: r1)
            = 92 :: 117 :: 50 :: 48 :: 50 :: (if x = 0xA8 then (56 : Byte) else 57) ::
              json.encodeStringLoop 0 0 r1 := by
          rcases hx with e | e <;> subst e <;> rfl
        rw [henc]
        simp only [List.cons_append]
        rw [unquoteLoop_lineSeparator _ (by rcases hx with e | e <;> subst e <;> decide), ih]
        rcases hx with e | e <;> subst e <;> rfl
      by_cases c3 : (b :: rest).take 3 = [0xE2, 0x80, 0xA8]
      · exact sep 0xA8 (Or.inl rfl) c3
      by_cases c4 : (b :: rest).take 3 = [0xE2, 0x80, 0xA9]
      · exact sep 0xA9 (Or.inr rfl) c4
      obtain ⟨pre, r, hrest, hlen, hloc⟩ := runeSize_split b rest hr
      subst hrest
      have hvr : validUTF8 r = true := by
        have := (validUTF8Loop_copy _ _ hv2).2
        rw [← hlen] at this
        simpa [validUTF8] using this
      have hlr : r.length ≤ n := by simp at hl1; omega
      have ih := unquoteLoop_encodeStringLoop n r tail hlr hvr
      have f1 : b ≠ 34 := fun e => c1 (by subst e; decide)
      have f2 : b ≠ 92 := fun e => c1 (by subst e; decide)
      have f3 : ¬ b.val < 0x20 := fun e => c1 (by omega)
      have hcopy := encodeStringLoop_copy _ pre r hlen
      simp only [json.encodeStringLoop, if_neg c1, if_neg hr, if_neg c3, if_neg c4, hcopy,
        List.cons_append, List.append_assoc]
      have hsz := hloc (json.encodeStringLoop 0 0 r ++ 34 :: tail)
      simp only [json.unquoteLoop, if_neg f1, if_neg f2, if_neg f3, if_neg c1, hsz, if_neg hr]
      rw [unquoteLoop_copy _ pre _ hlen, ih]
      simp [consOut_some, json.consOut]

/-- A string literal written by the encoder is read back by the scanner as the
text it was written from, when that text is valid UTF-8. -/
theorem unquoteLoop_encodeString (s tail : GoString) (h : validUTF8 s = true) :
    json.unquoteLoop 0 0 ((json.encodeString s).tail ++ tail) = some (s, tail) := by
  have := unquoteLoop_encodeStringLoop s.length s tail (Nat.le_refl _) h
  have e : (json.encodeString s).tail ++ tail
      = json.encodeStringLoop 0 0 s ++ 34 :: tail := by
    have q : ofAscii "\"" = [34] := by decide
    simp [json.encodeString, q]
  rw [e, this]

theorem encodeString_eq (s : GoString) :
    json.encodeString s = 34 :: (json.encodeString s).tail := by
  have q : ofAscii "\"" = [34] := by decide
  simp [json.encodeString, q]

/-! ## Base64 with any alphabet -/

theorem Encoding_decodeLoop_quad (enc : base64.Encoding)
    (hw : ∀ i : Fin 64, enc.decodeMap (enc.encodeChar i.val) = i.val)
    (s0 s1 s2 s3 : Nat) (h0 : s0 < 64) (h1 : s1 < 64) (h2 : s2 < 64) (h3 : s3 < 64)
    (tail : GoString) :
    enc.decodeLoop (enc.encodeChar s0 :: enc.encodeChar s1 :: enc.encodeChar s2 ::
        enc.encodeChar s3 :: tail) []
      = (enc.decodeLoop tail []).map (fun tl => quantumBytes [s0, s1, s2, s3] 4 ++ tl) := by
  have n0 : s0 ≠ 255 := by omega
  have n1 : s1 ≠ 255 := by omega
  have n2 : s2 ≠ 255 := by omega
  have n3 : s3 ≠ 255 := by omega
  have d0 := hw ⟨s0, h0⟩
  have d1 := hw ⟨s1, h1⟩
  have d2 := hw ⟨s2, h2⟩
  have d3 := hw ⟨s3, h3⟩
  simp only at d0 d1 d2 d3
  simp [base64.Encoding.decodeLoop, d0, d1, d2, d3, n0, n1, n2, n3]

theorem Encoding_decodeLoop_pad1 (enc : base64.Encoding)
    (hw : ∀ i : Fin 64, enc.decodeMap (enc.encodeChar i.val) = i.val)
    (hp : enc.decodeMap StdPadding = 0xff)
    (s0 s1 s2 : Nat) (h0 : s0 < 64) (h1 : s1 < 64) (h2 : s2 < 64) :
    enc.decodeLoop [enc.encodeChar s0, enc.encodeChar s1, enc.encodeChar s2, StdPadding] []
      = some (quantumBytes [s0, s1, s2] 3) := by
  have n0 : s0 ≠ 255 := by omega
  have n1 : s1 ≠ 255 := by omega
  have n2 : s2 ≠ 255 := by omega
  have p1 : StdPadding ≠ LF := by decide
  have p2 : StdPadding ≠ CR := by decide
  have d0 := hw ⟨s0, h0⟩
  have d1 := hw ⟨s1, h1⟩
  have d2 := hw ⟨s2, h2⟩
  simp only at d0 d1 d2
  simp [base64.Encoding.decodeLoop, d0, d1, d2, hp, skipNewlines, n0, n1, n2, p1, p2]

theorem Encoding_decodeLoop_pad2 (enc : base64.Encoding)
    (hw : ∀ i : Fin 64, enc.decodeMap (enc.encodeChar i.val) = i.val)
    (hp : enc.decodeMap StdPadding = 0xff)
    (s0 s1 : Nat) (h0 : s0 < 64) (h1 : s1 < 64) :
    enc.decodeLoop [enc.encodeChar s0, enc.encodeChar s1, StdPadding, StdPadding] []
      = some (quantumBytes [s0, s1] 2) := by
  have n0 : s0 ≠ 255 := by omega
  have n1 : s1 ≠ 255 := by omega
  have p1 : StdPadding ≠ LF := by decide
  have p2 : StdPadding ≠ CR := by decide
  have d0 := hw ⟨s0, h0⟩
  have d1 := hw ⟨s1, h1⟩
  simp only at d0 d1
  simp [base64.Encoding.decodeLoop, d0, d1, hp, skipNewlines, n0, n1, p1, p2]

/-- For an alphabet of 64 distinct characters without the padding character,
decoding undoes encoding. -/
theorem Encoding_DecodeString_EncodeToString (enc : base64.Encoding)
    (hw : ∀ i : Fin 64, enc.decodeMap (enc.encodeChar i.val) = i.val)
    (hp : enc.decodeMap StdPadding = 0xff) :
    ∀ bs : GoString, enc.DecodeString (enc.EncodeToString bs) = some bs
  | a :: b :: c :: rest => by
    have ih := Encoding_DecodeString_EncodeToString enc hw hp rest
    unfold base64.Encoding.DecodeString at ih ⊢
    simp only [base64.Encoding.EncodeToString]
    rw [Encoding_decodeLoop_quad enc hw _ _ _ _ (and_0x3F_lt _) (and_0x3F_lt _) (and_0x3F_lt _)
      (and_0x3F_lt _), ih, quantumBytes_4]
    rfl
  | [a, b] => by
    unfold base64.Encoding.DecodeString
    simp only [base64.Encoding.EncodeToString]
    rw [Encoding_decodeLoop_pad1 enc hw hp _ _ _ (and_0x3F_lt _) (and_0x3F_lt _) (and_0x3F_lt _),
      quantumBytes_3]
  | [a] => by
    unfold base64.Encoding.DecodeString
    simp only [base64.Encoding.EncodeToString]
    rw [Encoding_decodeLoop_pad2 enc hw hp _ _ (and_0x3F_lt _) (and_0x3F_lt _), quantumBytes_2]
  | [] => rfl

theorem URLEncoding_decodeMap_encodeChar :
    ∀ i : Fin 64, base64.URLEncoding.decodeMap (base64.URLEncoding.encodeChar i.val) = i.val := by
  decide

theorem URLEncoding_decodeMap_StdPadding : base64.URLEncoding.decodeMap StdPadding = 0xff := by
  decide

/-- Decoding with `URLEncoding` undoes encoding with it. -/
theorem URLEncoding_round_trip (bs : GoString) :
    base64.URLEncoding.DecodeString (base64.URLEncoding.EncodeToString bs) = some bs :=
  Encoding_DecodeString_EncodeToString _ URLEncoding_decodeMap_encodeChar
    URLEncoding_decodeMap_StdPadding bs

/-- The generic encoder with the standard alphabet is `EncodeToString`. -/
theorem StdEncoding_EncodeToString : ∀ bs : GoString,
    base64.StdEncoding.EncodeToString bs = EncodeToString bs
  | a :: b :: c :: rest => by
    simp only [base64.Encoding.EncodeToString, EncodeToString, StdEncoding_EncodeToString rest]
    rfl
  | [a, b] => rfl
  | [a] => rfl
  | [] => rfl

/-- The output of an encoder: characters of its alphabet and, at the end, padding;
four characters for every three bytes or part of them. -/
theorem Encoding_EncodeToString_shape (enc : base64.Encoding) (P : Byte → Prop)
    (hP : ∀ i : Fin 64, P (enc.encodeChar i.val)) : ∀ bs : GoString,
    (enc.EncodeToString bs).length = 4 * ((bs.length + 2) / 3) ∧
    ∀ c ∈ enc.EncodeToString bs, P c ∨ c = StdPadding
  | a :: b :: c :: rest => by
    obtain ⟨hl, hc⟩ := Encoding_EncodeToString_shape enc P hP rest
    have hq : ∀ x, P (enc.encodeChar (x &&& 0x3F)) := fun x => hP ⟨x &&& 0x3F, and_0x3F_lt x⟩
    constructor
    · simp only [base64.Encoding.EncodeToString, List.length_cons, hl]; omega
    · intro x hx
      simp only [base64.Encoding.EncodeToString, List.mem_cons] at hx
      rcases hx with e | e | e | e | e
      · subst e; exact Or.inl (hq _)
      · subst e; exact Or.inl (hq _)
      · subst e; exact Or.inl (hq _)
      · subst e; exact Or.inl (hq _)
      · exact hc x e
  | [a, b] => by
    have hq : ∀ x, P (enc.encodeChar (x &&& 0x3F)) := fun x => hP ⟨x &&& 0x3F, and_0x3F_lt x⟩
    refine ⟨by simp [base64.Encoding.EncodeToString], ?_⟩
    intro x hx
    simp only [base64.Encoding.EncodeToString, List.mem_cons, List.mem_singleton,
      List.not_mem_nil, or_false] at hx
    rcases hx with e | e | e | e
    · subst e; exact Or.inl (hq _)
    · subst e; exact Or.inl (hq _)
    · subst e; exact Or.inl (hq _)
    · exact Or.inr e
  | [a] => by
    have hq : ∀ x, P (enc.encodeChar (x &&& 0x3F)) := fun x => hP ⟨x &&& 0x3F, and_0x3F_lt x⟩
    refine ⟨by simp [base64.Encoding.EncodeToString], ?_⟩
    intro x hx
    simp only [base64.Encoding.EncodeToString, List.mem_cons, List.mem_singleton,
      List.not_mem_nil, or_false] at hx
    rcases hx with e | e | e | e
    · subst e; exact Or.inl (hq _)
    · subst e; exact Or.inl (hq _)
    · exact Or.inr e
    · exact Or.inr e
  | [] => ⟨rfl, by simp [base64.Encoding.EncodeToString]⟩

theorem isURLAlphabet_encodeChar :
    ∀ i : Fin 64, isURLAlphabet (base64.URLEncoding.encodeChar i.val) = true := by
  decide

theorem Encode_eq (u p : GoString) :
    ∃ buf, json.MarshalCredentials u p = .ok buf ∧ buf ≠ [] ∧
      Encode u p = base64.URLEncoding.EncodeToString buf := by
  refine ⟨_, rfl, ?_, rfl⟩
  have q : ofAscii "\x7b" = [123] := by decide
  simp [q]

/-- C17. Header token is transport-safe: `Encode u p` is never empty; each of its
characters is in `A`-`Z`, `a`-`z`, `0`-`9`, `-`, `_` or is the padding `=`;
it holds neither `+` nor `/`; its length is a multiple of 4. -/
theorem Encode_transport_safe (u p : GoString) :
    Encode u p ≠ [] ∧
    (∀ c ∈ Encode u p, isURLAlphabet c = true ∨ c = StdPadding) ∧
    (43 : Byte) ∉ Encode u p ∧ (47 : Byte) ∉ Encode u p ∧
    (Encode u p).length % 4 = 0 := by
  obtain ⟨buf, -, hne, he⟩ := Encode_eq u p
  obtain ⟨hl, hc⟩ := Encoding_EncodeToString_shape base64.URLEncoding
    (fun c => isURLAlphabet c = true) isURLAlphabet_encodeChar buf
  rw [← he] at hl hc
  have hpos : 0 < buf.length := List.length_pos.2 hne
  refine ⟨?_, hc, ?_, ?_, by omega⟩
  · intro h0
    rw [h0] at hl
    simp at hl
    omega
  · intro hm
    rcases hc _ hm with h | h
    · exact absurd h (by decide)
    · exact absurd h (by decide)
  · intro hm
    rcases hc _ hm with h | h
    · exact absurd h (by decide)
    · exact absurd h (by decide)

/-! ## Reading back what the encoder writes -/

theorem skipSpace_cons (c : Byte) (r : GoString) (h : json.isSpace c = false) :
    json.skipSpace (c :: r) = c :: r := by
  simp [json.skipSpace, h]

/-- The scanner reads a string literal written by the encoder. -/
theorem scanValue_encodeString (d : Nat) (s tail : GoString) (h : validUTF8 s = true) :
    json.scanValue d (json.encodeString s ++ tail) = some (.string s, tail) := by
  rw [encodeString_eq, List.cons_append, json.scanValue,
    skipSpace_cons 34 _ (by decide)]
  have e1 : ((34 : Byte) = 123) = False := by decide
  have e2 : ((34 : Byte) = 91) = False := by decide
  simp only [e1, e2, if_false, if_true, unquoteLoop_encodeString s tail h, Option.map_some']

/-- The scanner reads a member whose key was written by the encoder. -/
theorem scanMember_encodeString (scanV : GoString → Option (json.Value × GoString))
    (k X : GoString) (h : validUTF8 k = true) :
    json.scanMember scanV (json.encodeString k ++ 58 :: X)
      = (scanV X).map (fun r => ((k, r.1), r.2)) := by
  rw [encodeString_eq, List.cons_append, json.scanMember,
    skipSpace_cons 34 _ (by decide)]
  simp only [unquoteLoop_encodeString k (58 :: X) h]
  rw [skipSpace_cons 58 _ (by decide)]
  cases h2 : scanV X with
  | none => simp [h2]
  | some r => simp [h2]

/-- The scanner enters an object at an opening brace. -/
theorem scanValue_brace (d : Nat) (t : GoString) :
    json.scanValue (d + 1) (123 :: t)
      = (json.scanObject (json.scanValue d) t).map (fun r => (.object r.1, r.2)) := by
  rw [json.scanValue, skipSpace_cons 123 _ (by decide)]
  simp

/-- The scanner reads the first member of an object whose key was written by the
encoder, and goes on with the members after it. -/
theorem scanObject_encodeString (scanV : GoString → Option (json.Value × GoString))
    (k X : GoString) (h : validUTF8 k = true) :
    json.scanObject scanV (json.encodeString k ++ 58 :: X)
      = (scanV X).bind (fun r =>
          (json.scanObjectTail scanV (r.2.length + 1) r.2).map
            (fun t => ((k, r.1) :: t.1, t.2))) := by
  rw [json.scanObject, scanMember_encodeString scanV k X h]
  obtain ⟨t, ht⟩ : ∃ t, json.encodeString k = 34 :: t := ⟨_, encodeString_eq k⟩
  rw [ht, List.cons_append, skipSpace_cons 34 _ (by decide)]
  cases h2 : scanV X with
  | none => simp
  | some r => simp

/-- The scanner closes an object at a closing brace. -/
theorem scanObjectTail_brace (scanV : GoString → Option (json.Value × GoString))
    (fuel : Nat) (tail : GoString) :
    json.scanObjectTail scanV (fuel + 1) (125 :: tail) = some ([], tail) := by
  rw [json.scanObjectTail, skipSpace_cons 125 _ (by decide)]

theorem validUTF8_auth : validUTF8 (ofAscii "auth") = true := by decide

theorem validUTF8_auths : validUTF8 (ofAscii "auths") = true := by decide

theorem encodeAuths_eq (v : auths) :
    json.encodeAuths v
      = 123 :: (json.encodeString (ofAscii "auth") ++ 58 :: (json.encodeString v.Auth ++ [125])) := by
  have q : ofAscii "\x7b\"auth\":" = 123 :: (json.encodeString (ofAscii "auth") ++ [58]) := by
    decide
  have q2 : ofAscii "\x7d" = [125] := by decide
  simp [json.encodeAuths, q, q2]

/-- The scanner reads the object written for a struct `auths`. -/
theorem scanValue_encodeAuths (d : Nat) (v : auths) (tail : GoString)
    (h : validUTF8 v.Auth = true) :
    json.scanValue (d + 1) (json.encodeAuths v ++ tail)
      = some (.object [(ofAscii "auth", .string v.Auth)], tail) := by
  rw [encodeAuths_eq, List.cons_append, scanValue_brace, List.append_assoc, List.cons_append,
    scanObject_encodeString _ _ _ validUTF8_auth, List.append_assoc,
    scanValue_encodeString d _ _ h]
  simp [scanObjectTail_brace]

theorem encodeEntries_cons (e : GoString × auths) (rest : GoMap) :
    json.encodeEntries (e :: rest)
      = json.encodeString e.1 ++ 58 :: (json.encodeAuths e.2 ++ entriesTail rest) := by
  have q : ofAscii ":" = [58] := by decide
  have q2 : ofAscii "," = [44] := by decide
  induction rest generalizing e with
  | nil => simp [json.encodeEntries, entriesTail, q]
  | cons e1 rest ih =>
    have hstep : json.encodeEntries (e :: e1 :: rest)
        = json.encodeString e.1 ++ ofAscii ":" ++ json.encodeAuths e.2 ++ ofAscii "," ++
          json.encodeEntries (e1 :: rest) := rfl
    rw [hstep, ih e1]
    simp [entriesTail, q, q2]

theorem length_entriesTail (m : GoMap) : m.length ≤ (entriesTail m).length := by
  induction m with
  | nil => simp
  | cons e rest ih => simp [entriesTail]; omega

/-- The scanner reads the entries that the encoder writes after the first one. -/
theorem scanObjectTail_entriesTail (d : Nat) : ∀ (m : GoMap) (fuel : Nat) (tail : GoString),
    m.length < fuel → (∀ e ∈ m, validUTF8 e.1 = true ∧ validUTF8 e.2.Auth = true) →
    json.scanObjectTail (json.scanValue (d + 1)) fuel (entriesTail m ++ 125 :: tail)
      = some (m.map memberOf, tail)
  | [], fuel + 1, tail, _, _ => by
    simp [entriesTail, scanObjectTail_brace]
  | _, 0, _, h, _ => by simp at h
  | e :: rest, fuel + 1, tail, hf, hv => by
    have he := hv e (by simp)
    have ih := scanObjectTail_entriesTail d rest fuel tail (by simpa using hf)
      (fun x hx => hv x (List.mem_cons_of_mem _ hx))
    rw [entriesTail, List.cons_append, json.scanObjectTail, skipSpace_cons 44 _ (by decide)]
    simp only [List.append_assoc, List.cons_append]
    rw [scanMember_encodeString _ _ _ he.1, scanValue_encodeAuths d _ _ he.2]
    simp [ih, memberOf]

/-- The scanner reads the entries of a mapping as the encoder writes them. -/
theorem scanObject_encodeEntries (d : Nat) (m : GoMap) (tail : GoString)
    (hv : ∀ e ∈ m, validUTF8 e.1 = true ∧ validUTF8 e.2.Auth = true) :
    json.scanObject (json.scanValue (d + 1)) (json.encodeEntries m ++ 125 :: tail)
      = some (m.map memberOf, tail) := by
  rcases m with _ | ⟨e, rest⟩
  · simp [json.encodeEntries, json.scanObject, skipSpace_cons 125 _ (by decide)]
  · have he := hv e (by simp)
    rw [encodeEntries_cons, List.append_assoc, List.cons_append, List.append_assoc,
      scanObject_encodeString _ _ _ he.1, scanValue_encodeAuths d _ _ he.2]
    simp only [Option.some_bind]
    rw [scanObjectTail_entriesTail d rest _ tail
      (by have := length_entriesTail rest; simp; omega)
      (fun x hx => hv x (List.mem_cons_of_mem _ hx))]
    simp [memberOf]

/-- Reading back a marshalled configuration: when the keys and tokens of the
mapping are valid UTF-8, the decoder reads from the bytes of `json.Marshal` the
document with one member per entry, in the order of the keys. -/
theorem readValue_Marshal (m : GoMap) (bytes : GoString)
    (hb : json.Marshal ⟨m⟩ = .ok bytes)
    (hv : ∀ e ∈ m, validUTF8 e.1 = true ∧ validUTF8 e.2.Auth = true) :
    json.readValue bytes = some (documentOf m) := by
  have q : ofAscii "\x7b\"auths\":\x7b"
      = 123 :: (json.encodeString (ofAscii "auths") ++ [58, 123]) := by decide
  have q2 : ofAscii "\x7d\x7d" = [125, 125] := by decide
  simp only [json.Marshal, Except.ok.injEq] at hb
  subst hb
  have hs : ∀ e ∈ json.sortByKey m, validUTF8 e.1 = true ∧ validUTF8 e.2.Auth = true :=
    fun e he => hv e ((perm_sortByKey m).mem_iff.1 he)
  have hd : json.maxNestingDepth = 9997 + 1 + 1 + 1 := rfl
  have e1 : ofAscii "\x7b\"auths\":\x7b" ++ json.encodeEntries (json.sortByKey m) ++
        ofAscii "\x7d\x7d"
      = 123 :: (json.encodeString (ofAscii "auths") ++
        58 :: (123 :: (json.encodeEntries (json.sortByKey m) ++ 125 :: [125]))) := by
    rw [q, q2]; simp
  rw [json.readValue, hd, e1, scanValue_brace,
    scanObject_encodeString _ _ _ validUTF8_auths, scanValue_brace,
    scanObject_encodeEntries 9997 _ _ hs]
  simp [scanObjectTail_brace, documentOf]

/-! ## `Parse` on documents without entries and on documents that are not objects -/

set_option maxRecDepth 100000 in
theorem visit_nil (ρ : RangeOrder) : ρ.visit [] = [] := List.Perm.eq_nil (ρ.perm [])

set_option maxRecDepth 100000 in
/-- Members that select no entry leave the configuration empty. -/
theorem decodeConfigFields_empty : ∀ members : List (GoString × json.Value),
    (∀ m ∈ members, json.matchesField (ofAscii "auths") m.1 = true →
      m.2 = .object [] ∨ m.2 = .null) →
    json.decodeConfigFields members ⟨[]⟩ = .ok ⟨[]⟩
  | [], _ => rfl
  | (k, v) :: rest, h => by
    have ih := decodeConfigFields_empty rest (fun m hm => h m (List.mem_cons_of_mem _ hm))
    by_cases hk : json.matchesField (ofAscii "auths") k = true
    · rcases h (k, v) (by simp) hk with e | e
      · simp only at e
        subst e
        simp [json.decodeConfigFields, hk, json.decodeAuthsMap, json.decodeMapEntries, ih]
      · simp only at e
        subst e
        simp [json.decodeConfigFields, hk, json.decodeAuthsMap, ih]
    · simp [json.decodeConfigFields, hk, ih]

set_option maxRecDepth 100000 in
/-- C13. Empty store decodes to the empty list: for every document that is an object
in which each member named `auths` holds the empty object (or `null`), and so
for every object without such a member, `Parse` returns no error and the
empty list; so it does on the texts `{"auths": {}}` and `{}`. -/
theorem Parse_empty_store (ρ : RangeOrder) (members : List (GoString × json.Value))
    (h : ∀ m ∈ members, json.matchesField (ofAscii "auths") m.1 = true →
      m.2 = .object [] ∨ m.2 = .null) :
    Parse ρ (some (.object members)) = .returns [] ∧
    ParseString ρ (ofAscii "\x7b\"auths\": \x7b\x7d\x7d") = .returns [] ∧
    ParseString ρ (ofAscii "\x7b\x7d") = .returns [] := by
  have key : ∀ ms : List (GoString × json.Value),
      (∀ m ∈ ms, json.matchesField (ofAscii "auths") m.1 = true →
        m.2 = .object [] ∨ m.2 = .null) →
      Parse ρ (some (.object ms)) = .returns [] := by
    intro ms hms
    simp only [Parse, json.Decode, decodeConfigFields_empty ms hms, visit_nil, ParseLoop]
  have r1 : json.readValue (ofAscii "\x7b\"auths\": \x7b\x7d\x7d")
      = some (.object [(ofAscii "auths", .object [])]) := rfl
  have r2 : json.readValue (ofAscii "\x7b\x7d") = some (.object []) := rfl
  refine ⟨key members h, ?_, ?_⟩
  · rw [ParseString, r1]
    exact key _ (by simp)
  · rw [ParseString, r2]
    exact key _ (by simp)

set_option maxRecDepth 100000 in
theorem Parse_empty_store_witness :
    (∀ m ∈ [(ofAscii "credsStore", json.Value.string (ofAscii "osxkeychain")),
        (ofAscii "auths", json.Value.object [])],
      json.matchesField (ofAscii "auths") m.1 = true → m.2 = .object [] ∨ m.2 = .null) ∧
    Parse .asListed (some (.object [(ofAscii "credsStore", .string (ofAscii "osxkeychain")),
        (ofAscii "auths", .object [])])) = .returns [] :=
  ⟨by
    intro m hm hk
    simp only [List.mem_cons, List.mem_singleton, List.not_mem_nil, or_false] at hm
    rcases hm with e | e
    · subst e; exact absurd hk (by decide)
    · subst e; exact Or.inl rfl,
   (Parse_empty_store .asListed _ (by
    intro m hm hk
    simp only [List.mem_cons, List.mem_singleton, List.not_mem_nil, or_false] at hm
    rcases hm with e | e
    · subst e; exact absurd hk (by decide)
    · subst e; exact Or.inl rfl)).1⟩

set_option maxRecDepth 100000 in
/-- C12 (as stated, refuted). The top-level value `null` is not an object, yet
`Parse` returns no error for it, and the empty list; nor does it return an
error for an object followed by text that is not JSON. -/
theorem Parse_null_counterexample :
    json.readValue (ofAscii "null") = some .null ∧
    (∀ ρ : RangeOrder, ParseString ρ (ofAscii "null") = .returns []) ∧
    (∀ ρ : RangeOrder, ParseString ρ (ofAscii "\x7b\x7d trailing") = .returns []) := by
  have r1 : json.readValue (ofAscii "null") = some .null := rfl
  have r2 : json.readValue (ofAscii "\x7b\x7d trailing") = some (.object []) := rfl
  refine ⟨r1, fun ρ => ?_, fun ρ => ?_⟩
  · simp only [ParseString, r1, Parse, json.Decode, visit_nil, ParseLoop]
  · simp only [ParseString, r2, Parse, json.Decode, json.decodeConfigFields, visit_nil,
      ParseLoop]

set_option maxRecDepth 100000 in
/-- C12 (amended). `Parse` fails atomically on a bad document: when the input does not
start with a JSON value, or starts with a value that is neither an object nor
`null` (a number, a string, a boolean, an array), `Parse` returns an error and
no list. -/
theorem Parse_fails_on_bad_document (ρ : RangeOrder) (s : GoString)
    (h : ∀ v, json.readValue s = some v → acceptedAtTop v = false) :
    ∃ err, ParseString ρ s = .fails err := by
  cases hr : json.readValue s with
  | none => exact ⟨.syntaxError, by simp [ParseString, hr, Parse, json.Decode]⟩
  | some v =>
    have hv := h v hr
    cases v with
    | null => simp [acceptedAtTop] at hv
    | object ms => simp [acceptedAtTop] at hv
    | bool b => exact ⟨.unmarshalTypeError, by simp [ParseString, hr, Parse, json.Decode]⟩
    | number t => exact ⟨.unmarshalTypeError, by simp [ParseString, hr, Parse, json.Decode]⟩
    | string t => exact ⟨.unmarshalTypeError, by simp [ParseString, hr, Parse, json.Decode]⟩
    | array t => exact ⟨.unmarshalTypeError, by simp [ParseString, hr, Parse, json.Decode]⟩

set_option maxRecDepth 100000 in
theorem Parse_fails_on_bad_document_witness :
    (∀ v, json.readValue (ofAscii "[1, 2]") = some v → acceptedAtTop v = false) ∧
    (∀ v, json.readValue (ofAscii "\x7b\"auths\": ") = some v → acceptedAtTop v = false) ∧
    (∃ err, ParseString .asListed (ofAscii "[1, 2]") = .fails err) ∧
    (∃ err, ParseString .asListed (ofAscii "\x7b\"auths\": ") = .fails err) := by
  have r1 : json.readValue (ofAscii "[1, 2]")
      = some (.array [.number (ofAscii "1"), .number (ofAscii "2")]) := rfl
  have r2 : json.readValue (ofAscii "\x7b\"auths\": ") = none := rfl
  have h1 : ∀ v, json.readValue (ofAscii "[1, 2]") = some v → acceptedAtTop v = false := by
    intro v hv
    rw [r1] at hv
    cases hv
    rfl
  have h2 : ∀ v, json.readValue (ofAscii "\x7b\"auths\": ") = some v →
      acceptedAtTop v = false := by
    intro v hv
    rw [r2] at hv
    cases hv
  exact ⟨h1, h2, Parse_fails_on_bad_document .asListed _ h1,
    Parse_fails_on_bad_document .asListed _ h2⟩

/-! ## The header token -/

set_option maxRecDepth 100000 in
/-- The scanner reads a further member of an object whose key was written by the
encoder. -/
theorem scanObjectTail_comma (scanV : GoString → Option (json.Value × GoString))
    (fuel : Nat) (k X : GoString) (h : validUTF8 k = true) :
    json.scanObjectTail scanV (fuel + 1) (44 :: (json.encodeString k ++ 58 :: X))
      = (scanV X).bind (fun r =>
          (json.scanObjectTail scanV fuel r.2).map (fun t => ((k, r.1) :: t.1, t.2))) := by
  rw [json.scanObjectTail, skipSpace_cons 44 _ (by decide)]
  simp only []
  rw [scanMember_encodeString scanV k X h]
  cases h2 : scanV X with
  | none => simp
  | some r => simp

set_option maxRecDepth 100000 in
theorem validUTF8_username : validUTF8 (ofAscii "username") = true := by decide

set_option maxRecDepth 100000 in
theorem validUTF8_password : validUTF8 (ofAscii "password") = true := by decide

set_option maxRecDepth 100000 in
/-- Reading back the marshalled credentials: when username and password are valid
UTF-8, the text that `json.Marshal` writes for the struct of `Encode` is read
as the object with a key for each of the two that is not empty. -/
theorem readValue_MarshalCredentials (u p text : GoString)
    (ht : json.MarshalCredentials u p = .ok text)
    (hu : validUTF8 u = true) (hp : validUTF8 p = true) :
    json.readValue text = some (credentialsObject u p) := by
  have qo : ofAscii "\x7b" = [123] := by decide
  have qc : ofAscii "\x7d" = [125] := by decide
  have qs : ofAscii "," = [44] := by decide
  have qu : ofAscii "\"username\":" = json.encodeString (ofAscii "username") ++ [58] := by
    decide
  have qp : ofAscii "\"password\":" = json.encodeString (ofAscii "password") ++ [58] := by
    decide
  have hd : json.maxNestingDepth = 9999 + 1 := rfl
  simp only [json.MarshalCredentials, Except.ok.injEq] at ht
  subst ht
  rw [json.readValue, hd, qo, qc, qu, qp]
  by_cases eu : u = [] <;> by_cases ep : p = []
  · subst eu; subst ep
    rfl
  · subst eu
    have e1 : [123] ++ json.joinComma
          ((if ([] : GoString) = [] then [] else
              [json.encodeString (ofAscii "username") ++ [58] ++ json.encodeString []]) ++
            (if p = [] then [] else
              [json.encodeString (ofAscii "password") ++ [58] ++ json.encodeString p])) ++ [125]
        = 123 :: (json.encodeString (ofAscii "password") ++
            58 :: (json.encodeString p ++ [125])) := by
      simp [ep, json.joinComma]
    rw [e1, scanValue_brace, scanObject_encodeString _ _ _ validUTF8_password,
      scanValue_encodeString _ _ _ hp]
    simp [scanObjectTail_brace, credentialsObject, ep]
  · subst ep
    have e1 : [123] ++ json.joinComma
          ((if u = [] then [] else
              [json.encodeString (ofAscii "username") ++ [58] ++ json.encodeString u]) ++
            (if ([] : GoString) = [] then [] else
              [json.encodeString (ofAscii "password") ++ [58] ++ json.encodeString []])) ++ [125]
        = 123 :: (json.encodeString (ofAscii "username") ++
            58 :: (json.encodeString u ++ [125])) := by
      simp [eu, json.joinComma]
    rw [e1, scanValue_brace, scanObject_encodeString _ _ _ validUTF8_username,
      scanValue_encodeString _ _ _ hu]
    simp [scanObjectTail_brace, credentialsObject, eu]
  · have e1 : [123] ++ json.joinComma
          ((if u = [] then [] else
              [json.encodeString (ofAscii "username") ++ [58] ++ json.encodeString u]) ++
            (if p = [] then [] else
              [json.encodeString (ofAscii "password") ++ [58] ++ json.encodeString p])) ++ [125]
        = 123 :: (json.encodeString (ofAscii "username") ++
            58 :: (json.encodeString u ++ 44 :: (json.encodeString (ofAscii "password") ++
              58 :: (json.encodeString p ++ [125])))) := by
      simp [eu, ep, json.joinComma, qs]
    rw [e1, scanValue_brace, scanObject_encodeString _ _ _ validUTF8_username,
      scanValue_encodeString _ _ _ hu]
    simp only [Option.some_bind, List.length_cons]
    rw [scanObjectTail_comma _ _ _ _ validUTF8_password, scanValue_encodeString _ _ _ hp]
    simp [scanObjectTail_brace, credentialsObject, eu, ep]

set_option maxRecDepth 100000 in
/-- C11 (as stated, refuted). For the username with the single byte `0xff`, which is
not valid UTF-8, the header token decodes to an object whose `username` is the
character U+FFFD, not the username. -/
theorem Encode_invalid_text_counterexample :
    (base64.URLEncoding.DecodeString (Encode [0xff] [])).bind json.readValue
      = some (.object [(ofAscii "username", .string [0xEF, 0xBF, 0xBD])]) ∧
    (base64.URLEncoding.DecodeString (Encode [0xff] [])).bind json.readValue
      ≠ some (credentialsObject [0xff] []) := by
  have r : (base64.URLEncoding.DecodeString (Encode [0xff] [])).bind json.readValue
      = some (.object [(ofAscii "username", .string [0xEF, 0xBF, 0xBD])]) := rfl
  refine ⟨r, ?_⟩
  rw [r]
  intro h
  simp [credentialsObject] at h

set_option maxRecDepth 100000 in
/-- C11 (amended). Header encode omits empty fields: for every username and password
that are valid UTF-8, `Encode u p` is the URL-safe base64 encoding of a JSON
object that has the key `username`, with value `u`, exactly when `u` is not
empty, the key `password`, with value `p`, exactly when `p` is not empty,
and no other key; `Encode "" "secret"` decodes to `{"password": "secret"}`
and `Encode "" ""` to `{}`. -/
theorem Encode_omits_empty_fields (u p : GoString)
    (hu : validUTF8 u = true) (hp : validUTF8 p = true) :
    (∃ text, Encode u p = base64.URLEncoding.EncodeToString text ∧
      base64.URLEncoding.DecodeString (Encode u p) = some text ∧
      json.readValue text = some (credentialsObject u p)) ∧
    (base64.URLEncoding.DecodeString (Encode [] (ofAscii "secret"))).bind json.readValue
      = some (.object [(ofAscii "password", .string (ofAscii "secret"))]) ∧
    (base64.URLEncoding.DecodeString (Encode [] [])).bind json.readValue
      = some (.object []) := by
  refine ⟨?_, rfl, rfl⟩
  obtain ⟨buf, hb, -, he⟩ := Encode_eq u p
  exact ⟨buf, he, by rw [he, URLEncoding_round_trip],
    readValue_MarshalCredentials u p buf hb hu hp⟩

set_option maxRecDepth 100000 in
theorem Encode_omits_empty_fields_witness :
    validUTF8 (ofAscii "alice") = true ∧ validUTF8 ([] : GoString) = true ∧
    ∃ text, Encode (ofAscii "alice") [] = base64.URLEncoding.EncodeToString text ∧
      base64.URLEncoding.DecodeString (Encode (ofAscii "alice") []) = some text ∧
      json.readValue text = some (credentialsObject (ofAscii "alice") []) :=
  ⟨by decide, by decide,
    (Encode_omits_empty_fields (ofAscii "alice") [] (by decide) (by decide)).1⟩

/-! ## `Parse` after `Marshal` -/

set_option maxRecDepth 100000 in
theorem visit_singleton (ρ : RangeOrder) (e : GoString × auths) : ρ.visit [e] = [e] :=
  List.perm_singleton.1 (ρ.perm [e])

set_option maxRecDepth 100000 in
theorem validUTF8Loop_of_ascii : ∀ s : GoString, (∀ c ∈ s, c.val < 0x80) →
    validUTF8Loop 0 s = true
  | [], _ => rfl
  | b :: rest, h => by
    have hb : b.val < 0x80 := h b (by simp)
    have e1 : json.runeSize (b :: rest) = 1 := by simp [json.runeSize, hb]
    simp only [validUTF8Loop, e1, ne_eq, one_ne_zero, not_false_eq_true, decide_True,
      Bool.true_and]
    exact validUTF8Loop_of_ascii rest (fun c hc => h c (List.mem_cons_of_mem _ hc))

set_option maxRecDepth 100000 in
theorem isStdAlphabet_ascii (c : Byte) (h : isStdAlphabet c = true ∨ c = StdPadding) :
    c.val < 0x80 := by
  revert c; decide

set_option maxRecDepth 100000 in
/-- A token is ASCII text, so valid UTF-8. -/
theorem validUTF8_encode (u p : GoString) : validUTF8 (encode u p) = true := by
  apply validUTF8Loop_of_ascii
  intro c hc
  obtain ⟨-, body, pad, he, hb, -, hq⟩ := EncodeToString_shape (u ++ colon :: p)
  rw [encode_eq, he] at hc
  rcases List.mem_append.1 hc with h | h
  · exact isStdAlphabet_ascii c (Or.inl (hb c h))
  · exact isStdAlphabet_ascii c (Or.inr (hq c h))

set_option maxRecDepth 100000 in
theorem decode_encode (u p : GoString) (h : colon ∉ u) : decode (encode u p) = (u, p) :=
  decode_of_DecodeString_append _ u p h (by rw [encode_eq, DecodeString_EncodeToString])

set_option maxRecDepth 100000 in
theorem hostNormalize_of_hostname (a b : GoString) (h : hostname a = .returns b) :
    url.Parse a ≠ none ∧ hostNormalize a = b := by
  cases hp : url.Parse a with
  | none => rw [hostname_of_Parse_none a hp] at h; cases h
  | some uri =>
    have := (hostname_of_Parse_some a uri hp).2
    rw [this] at h
    cases h
    exact ⟨by simp, rfl⟩

set_option maxRecDepth 100000 in
theorem documentOf_eq (m : GoMap) :
    documentOf m = document ((json.sortByKey m).map (fun e => (e.1, e.2.Auth))) := by
  simp [documentOf, document, memberOf, List.map_map, Function.comp]

set_option maxRecDepth 100000 in
/-- `Parse` on the bytes of a marshalled mapping: when the keys are valid UTF-8 and
parse as URLs and the tokens are valid UTF-8, `ParseString` returns, up to
order, the records of the entries. -/
theorem ParseString_Marshal (ρ : RangeOrder) (m : GoMap) (bytes : GoString)
    (hb : json.Marshal ⟨m⟩ = .ok bytes) (hn : (m.map Prod.fst).Nodup)
    (hv : ∀ e ∈ m, validUTF8 e.1 = true ∧ validUTF8 e.2.Auth = true)
    (hu : ∀ e ∈ m, url.Parse e.1 ≠ none) :
    json.readValue bytes = some (documentOf m) ∧
    ∃ rs, ParseString ρ bytes = .returns rs ∧ rs.Perm (m.map recordOf) := by
  have hr := readValue_Marshal m bytes hb hv
  refine ⟨hr, ?_⟩
  have hp := perm_sortByKey m
  have hn2 : (((json.sortByKey m).map (fun e => (e.1, e.2.Auth))).map Prod.fst).Nodup := by
    have : ((json.sortByKey m).map (fun e => (e.1, e.2.Auth))).map Prod.fst
        = (json.sortByKey m).map Prod.fst := by simp [List.map_map, Function.comp]
    rw [this]
    exact (hp.map Prod.fst).nodup_iff.2 hn
  have hdec := Decode_document _ hn2
  have hback : ((json.sortByKey m).map (fun e => (e.1, e.2.Auth))).map
        (fun e => (e.1, (⟨e.2⟩ : auths))) = json.sortByKey m := by
    rw [List.map_map]
    conv_rhs => rw [← List.map_id (json.sortByKey m)]
    apply List.map_congr_left
    intro e _
    rfl
  rw [hback, ← documentOf_eq, ← hr] at hdec
  obtain ⟨rs, h1, -, h2⟩ := Parse_one_record_per_key ρ _ _ hdec
    (fun e he => hu e (hp.mem_iff.1 he))
  exact ⟨rs, h1, h2.trans (hp.map recordOf)⟩

set_option maxRecDepth 100000 in
theorem Marshal_eq (list : List Auth) :
    ∃ bytes, Marshal list = .returns bytes ∧
      json.Marshal ⟨MarshalLoop list []⟩ = .ok bytes := ⟨_, rfl, rfl⟩
set_option maxRecDepth 100000 in
/-- C18 (as stated, refuted). The record with the address `"\xff"`, which is not
valid UTF-8, satisfies `hostname a = a`; `Marshal` writes the address as
U+FFFD, and `Parse` of the output returns a record with that address, which
is not the record of the input. -/
theorem Parse_Marshal_counterexample :
    hostname [0xff] = .returns [0xff] ∧ colon ∉ ofAscii "u" ∧
    Marshal [⟨[0xff], ofAscii "u", ofAscii "p"⟩]
      = .returns (ofAscii "\x7b\"auths\":\x7b\"\\ufffd\":\x7b\"auth\":\"dTpw\"\x7d\x7d\x7d") ∧
    ParseString .asListed
        (ofAscii "\x7b\"auths\":\x7b\"\\ufffd\":\x7b\"auth\":\"dTpw\"\x7d\x7d\x7d")
      = .returns [⟨[0xEF, 0xBF, 0xBD], ofAscii "u", ofAscii "p"⟩] ∧
    ¬ List.Perm [(⟨[0xEF, 0xBF, 0xBD], ofAscii "u", ofAscii "p"⟩ : Auth)]
        [⟨[0xff], ofAscii "u", ofAscii "p"⟩] := by
  refine ⟨by decide, by decide, by decide, by decide, ?_⟩
  rw [List.perm_singleton]
  decide

set_option maxRecDepth 100000 in
/-- C18 (amended). Parse undoes Marshal: for every list of records whose addresses are
pairwise distinct, valid UTF-8 and left unchanged by `hostname`, and whose
usernames hold no colon, `Marshal` succeeds and `Parse` of its output returns
no error and a permutation of the list. -/
theorem Parse_undoes_Marshal (ρ : RangeOrder) (list : List Auth)
    (hn : (list.map Auth.Address).Nodup)
    (hh : ∀ r ∈ list, hostname r.Address = .returns r.Address)
    (hc : ∀ r ∈ list, colon ∉ r.Username)
    (hv : ∀ r ∈ list, validUTF8 r.Address = true) :
    ∃ bytes rs, Marshal list = .returns bytes ∧ ParseString ρ bytes = .returns rs ∧
      rs.Perm list := by
  obtain ⟨bytes, hm, hj⟩ := Marshal_eq list
  have hl := MarshalLoop_of_nodup list [] (by simpa using hn)
  rw [List.nil_append] at hl
  rw [hl] at hj
  have hkeys : (list.map entryOf).map Prod.fst = list.map Auth.Address := by
    simp [List.map_map, Function.comp, entryOf]
  obtain ⟨-, rs, h1, h2⟩ := ParseString_Marshal ρ (list.map entryOf) bytes hj
    (by rw [hkeys]; exact hn)
    (by
      intro e he
      obtain ⟨r, hr, rfl⟩ := List.mem_map.1 he
      exact ⟨hv r hr, validUTF8_encode _ _⟩)
    (by
      intro e he
      obtain ⟨r, hr, rfl⟩ := List.mem_map.1 he
      exact (hostNormalize_of_hostname _ _ (hh r hr)).1)
  refine ⟨bytes, rs, hm, h1, ?_⟩
  have hid : (list.map entryOf).map recordOf = list := by
    rw [List.map_map]
    conv_rhs => rw [← List.map_id list]
    apply List.map_congr_left
    intro r hr
    have ha := (hostNormalize_of_hostname _ _ (hh r hr)).2
    have hd := decode_encode r.Username r.Password (hc r hr)
    simp [recordOf, entryOf, ha, hd]
  rw [hid] at h2
  exact h2

set_option maxRecDepth 100000 in
theorem Parse_undoes_Marshal_witness :
    ([(⟨ofAscii "b.io", ofAscii "u", ofAscii "p"⟩ : Auth),
      ⟨ofAscii "a.io:5000", ofAscii "v", ofAscii "q:r"⟩].map Auth.Address).Nodup ∧
    (∀ r ∈ [(⟨ofAscii "b.io", ofAscii "u", ofAscii "p"⟩ : Auth),
      ⟨ofAscii "a.io:5000", ofAscii "v", ofAscii "q:r"⟩],
      hostname r.Address = .returns r.Address) ∧
    ∃ bytes rs,
      Marshal [⟨ofAscii "b.io", ofAscii "u", ofAscii "p"⟩,
        ⟨ofAscii "a.io:5000", ofAscii "v", ofAscii "q:r"⟩] = .returns bytes ∧
      ParseString .reversed bytes = .returns rs ∧
      rs.Perm [⟨ofAscii "b.io", ofAscii "u", ofAscii "p"⟩,
        ⟨ofAscii "a.io:5000", ofAscii "v", ofAscii "q:r"⟩] :=
  ⟨by decide, by decide,
    Parse_undoes_Marshal .reversed _ (by decide) (by decide) (by decide) (by decide)⟩

set_option maxRecDepth 100000 in
/-- C15 (as stated, refuted). The key `"http://a%ffb/"` parses as a URL whose host
holds the byte `0xff`; `Parse` returns a record with that host as address, and
`Marshal` of the record writes a document whose key holds U+FFFD in its
place, so the key of the document is not `hostname k`. -/
theorem Parse_then_Marshal_counterexample :
    colon ∉ ofAscii "u" ∧
    hostname (ofAscii "http://a%ffb/") = .returns [97, 0xff, 98] ∧
    Parse .asListed (some (document [(ofAscii "http://a%ffb/", encode (ofAscii "u") (ofAscii "p"))]))
      = .returns [⟨[97, 0xff, 98], ofAscii "u", ofAscii "p"⟩] ∧
    Marshal [⟨[97, 0xff, 98], ofAscii "u", ofAscii "p"⟩]
      = .returns (ofAscii "\x7b\"auths\":\x7b\"a\\ufffdb\":\x7b\"auth\":\"dTpw\"\x7d\x7d\x7d") ∧
    json.readValue (ofAscii "\x7b\"auths\":\x7b\"a\\ufffdb\":\x7b\"auth\":\"dTpw\"\x7d\x7d\x7d")
      = some (document [([97, 0xEF, 0xBF, 0xBD, 98], encode (ofAscii "u") (ofAscii "p"))]) ∧
    json.readValue (ofAscii "\x7b\"auths\":\x7b\"a\\ufffdb\":\x7b\"auth\":\"dTpw\"\x7d\x7d\x7d")
      ≠ some (document [([97, 0xff, 98], encode (ofAscii "u") (ofAscii "p"))]) := by
  have r : json.readValue
      (ofAscii "\x7b\"auths\":\x7b\"a\\ufffdb\":\x7b\"auth\":\"dTpw\"\x7d\x7d\x7d")
      = some (document [([97, 0xEF, 0xBF, 0xBD, 98], encode (ofAscii "u") (ofAscii "p"))]) :=
    rfl
  refine ⟨by decide, by decide, by decide, by decide, r, ?_⟩
  rw [r]
  intro h
  simp [document] at h

set_option maxRecDepth 100000 in
/-- C15 (amended). Decode then re-encode rewrites the key to the bare host and keeps
the token: for every key `k` that parses as a URL and whose normalised host
is valid UTF-8, every colon-free `u` and every `p`, `Parse` of the document
`{"auths": {k: {"auth": encode u p}}}` returns the one record with the address
`hostname k`, and `Marshal` of that record returns the text of the document
`{"auths": {hostname k: {"auth": encode u p}}}`. The example of the claim
holds byte for byte. -/
theorem Parse_then_Marshal (ρ : RangeOrder) (k u p : GoString)
    (hc : colon ∉ u) (hk : url.Parse k ≠ none) (hv : validUTF8 (hostNormalize k) = true) :
    hostname k = .returns (hostNormalize k) ∧
    Parse ρ (some (document [(k, encode u p)])) = .returns [⟨hostNormalize k, u, p⟩] ∧
    (∃ bytes, Marshal [⟨hostNormalize k, u, p⟩] = .returns bytes ∧
      json.readValue bytes = some (document [(hostNormalize k, encode u p)])) ∧
    ParseString ρ (ofAscii
        "\x7b\"auths\": \x7b\"https://registry.example.com\": \x7b\"auth\": \"dXNlcjpwYXNz\"\x7d\x7d\x7d")
      = .returns [⟨ofAscii "registry.example.com", ofAscii "user", ofAscii "pass"⟩] ∧
    Marshal [⟨ofAscii "registry.example.com", ofAscii "user", ofAscii "pass"⟩]
      = .returns (ofAscii
        "\x7b\"auths\":\x7b\"registry.example.com\":\x7b\"auth\":\"dXNlcjpwYXNz\"\x7d\x7d\x7d") := by
  have hhost : hostname k = .returns (hostNormalize k) := by
    cases hp : url.Parse k with
    | none => exact absurd hp hk
    | some uri => exact (hostname_of_Parse_some k uri hp).2
  have hparse : ∀ (k1 t : GoString) (a : Auth), hostname k1 = .returns a.Address →
      decode t = (a.Username, a.Password) →
      Parse ρ (some (document [(k1, t)])) = .returns [a] := by
    intro k1 t a h1 h2
    have hd := Decode_document [(k1, t)] (by simp)
    simp only [Parse, hd, List.map_cons, List.map_nil, visit_singleton, ParseLoop, h1, h2,
      List.nil_append]
  refine ⟨hhost, hparse k (encode u p) ⟨hostNormalize k, u, p⟩ hhost (decode_encode u p hc),
    ?_, ?_, by decide⟩
  · obtain ⟨bytes, hm, hj⟩ := Marshal_eq [⟨hostNormalize k, u, p⟩]
    refine ⟨bytes, hm, ?_⟩
    have hl : MarshalLoop [(⟨hostNormalize k, u, p⟩ : Auth)] []
        = [(hostNormalize k, ⟨encode u p⟩)] := rfl
    rw [hl] at hj
    rw [readValue_Marshal _ bytes hj (by
      intro e he
      simp only [List.mem_singleton] at he
      subst he
      exact ⟨hv, validUTF8_encode u p⟩)]
    rfl
  · have r : json.readValue (ofAscii
        "\x7b\"auths\": \x7b\"https://registry.example.com\": \x7b\"auth\": \"dXNlcjpwYXNz\"\x7d\x7d\x7d")
        = some (document [(ofAscii "https://registry.example.com", ofAscii "dXNlcjpwYXNz")]) :=
      rfl
    rw [ParseString, r]
    exact hparse _ _ ⟨ofAscii "registry.example.com", ofAscii "user", ofAscii "pass"⟩
      (by decide) (by decide)

set_option maxRecDepth 100000 in
theorem Parse_then_Marshal_witness :
    colon ∉ ofAscii "user" ∧ url.Parse (ofAscii "https://index.docker.io/v1/") ≠ none ∧
    validUTF8 (hostNormalize (ofAscii "https://index.docker.io/v1/")) = true ∧
    Parse .asListed (some (document
        [(ofAscii "https://index.docker.io/v1/", encode (ofAscii "user") (ofAscii "pass"))]))
      = .returns [⟨hostNormalize (ofAscii "https://index.docker.io/v1/"), ofAscii "user",
          ofAscii "pass"⟩] :=
  ⟨by decide, by decide, by decide,
    (Parse_then_Marshal .asListed (ofAscii "https://index.docker.io/v1/") (ofAscii "user")
      (ofAscii "pass") (by decide) (by decide) (by decide)).2.1⟩

/-! ## `Marshal`: the document that is produced -/

/-- An assignment under the key `a` commutes with keeping the entries under `a`. -/
theorem mapSet_filter_comm (m : GoMap) (a : GoString) (v : auths) :
    (mapSet m a v).filter (fun e => e.1 = a) = mapSet (m.filter (fun e => e.1 = a)) a v := by
  induction m with
  | nil => simp [mapSet]
  | cons e rest ih =>
    obtain ⟨k0, v0⟩ := e
    by_cases h0 : k0 = a
    · subst h0
      simp [mapSet, List.filter_cons]
    · simp [mapSet, h0, List.filter_cons, ih]

/-- The entries under a key `a` after the loop of `Marshal` are those that the
loop builds from the records with the address `a` alone. -/
theorem MarshalLoop_filter (list : List Auth) (m : GoMap) (a : GoString) :
    (MarshalLoop list m).filter (fun e => e.1 = a)
      = MarshalLoop (list.filter (fun x => x.Address = a)) (m.filter (fun e => e.1 = a)) := by
  induction list generalizing m with
  | nil => rfl
  | cons item rest ih =>
    by_cases h : item.Address = a
    · simp only [MarshalLoop, ih, List.filter_cons, h, decide_True, if_true]
      rw [← h, mapSet_filter_comm]
    · rw [List.filter_cons_of_neg (by simpa using h)]
      simp only [MarshalLoop, ih]
      rw [mapSet_filter_other m _ a _ h]

/-- After the loop of `Marshal` the map holds one entry under the address of the
last record with that address, with the token of that record. -/
theorem MarshalLoop_filter_last (pre post : List Auth) (r : Auth)
    (hlast : ∀ x ∈ post, x.Address ≠ r.Address) :
    (MarshalLoop (pre ++ r :: post) []).filter (fun e => e.1 = r.Address)
      = [(r.Address, ⟨encode r.Username r.Password⟩)] := by
  rw [MarshalLoop_append]
  simp only [MarshalLoop]
  rw [MarshalLoop_filter_other post _ r.Address hlast]
  exact mapSet_filter_same _ _ _ (MarshalLoop_nodup pre [] (by simp))

/-- Two maps that hold the same entries under every key are permutations of each
other. -/
theorem perm_of_filter_eq (m1 m2 : GoMap) (h1 : (m1.map Prod.fst).Nodup)
    (h2 : (m2.map Prod.fst).Nodup)
    (h : ∀ a, m1.filter (fun e => e.1 = a) = m2.filter (fun e => e.1 = a)) : m1.Perm m2 := by
  rw [List.perm_ext_iff_of_nodup (List.Nodup.of_map Prod.fst h1) (List.Nodup.of_map Prod.fst h2)]
  intro e
  have e1 : e ∈ m1 ↔ e ∈ m1.filter (fun x => x.1 = e.1) := by simp [List.mem_filter]
  have e2 : e ∈ m2 ↔ e ∈ m2.filter (fun x => x.1 = e.1) := by simp [List.mem_filter]
  rw [e1, e2, h]

/-- The records that precede the last record with an address, and have the same
address, do not change the map that the loop of `Marshal` builds, up to the
order of its entries. -/
theorem MarshalLoop_drop_overwritten (pre post : List Auth) (r : Auth)
    (hlast : ∀ x ∈ post, x.Address ≠ r.Address) :
    (MarshalLoop (pre ++ r :: post) []).Perm
      (MarshalLoop (pre.filter (fun x => x.Address ≠ r.Address) ++ r :: post) []) := by
  apply perm_of_filter_eq _ _ (MarshalLoop_nodup _ [] (by simp)) (MarshalLoop_nodup _ [] (by simp))
  intro a
  by_cases ha : a = r.Address
  · subst ha
    rw [MarshalLoop_filter_last pre post r hlast, MarshalLoop_filter_last _ post r hlast]
  · rw [MarshalLoop_filter, MarshalLoop_filter]
    congr 1
    simp only [List.filter_append, List.filter_filter]
    congr 1
    apply List.filter_congr
    intro x _
    by_cases hx : x.Address = a
    · have : x.Address ≠ r.Address := fun e => ha (hx ▸ e)
      simp [hx, this]
      exact fun e => ha e
    · simp [hx]

/-- The bytes that `Marshal` returns depend on the entries of the map only. -/
theorem Marshal_eq_of_perm (l1 l2 : List Auth)
    (hp : (MarshalLoop l1 []).Perm (MarshalLoop l2 [])) : Marshal l1 = Marshal l2 := by
  have hs := sortByKey_eq_of_perm _ _ hp (MarshalLoop_nodup l1 [] (by simp))
  simp only [Marshal, json.Marshal, hs]

/-- The document that is read back from the bytes `Marshal` returns, when every
address is valid UTF-8: one member per entry of the map. -/
theorem readValue_Marshal_list (list : List Auth)
    (hv : ∀ r ∈ list, validUTF8 r.Address = true) :
    ∃ bytes, Marshal list = .returns bytes ∧
      json.readValue bytes = some (.object [(ofAscii "auths",
        .object ((json.sortByKey (MarshalLoop list [])).map memberOf))]) := by
  obtain ⟨bytes, hm, hj⟩ := Marshal_eq list
  refine ⟨bytes, hm, ?_⟩
  rw [readValue_Marshal _ bytes hj]
  · rfl
  · intro e he
    rcases MarshalLoop_mem list [] e he with h | ⟨r, hr, h1, h2⟩
    · simp at h
    · exact ⟨h1 ▸ hv r hr, h2 ▸ validUTF8_encode _ _⟩

set_option maxRecDepth 100000 in
/-- C9 (as stated, refuted). The addresses `"\xff"` and `"\xfe"` are not valid
UTF-8; `Marshal` writes each of them as U+FFFD, so the `auths` mapping of the
produced document has the one key U+FFFD, twice, and its keys are not the
addresses of the list. -/
theorem Marshal_keys_counterexample :
    validUTF8 [0xff] = false ∧ validUTF8 [0xfe] = false ∧
    Marshal [⟨[0xff], ofAscii "u", ofAscii "p"⟩, ⟨[0xfe], ofAscii "v", ofAscii "q"⟩]
      = .returns (ofAscii
        "\x7b\"auths\":\x7b\"\\ufffd\":\x7b\"auth\":\"djpx\"\x7d,\"\\ufffd\":\x7b\"auth\":\"dTpw\"\x7d\x7d\x7d") ∧
    json.readValue (ofAscii
        "\x7b\"auths\":\x7b\"\\ufffd\":\x7b\"auth\":\"djpx\"\x7d,\"\\ufffd\":\x7b\"auth\":\"dTpw\"\x7d\x7d\x7d")
      = some (document [([0xEF, 0xBF, 0xBD], encode (ofAscii "v") (ofAscii "q")),
          ([0xEF, 0xBF, 0xBD], encode (ofAscii "u") (ofAscii "p"))]) ∧
    ¬ ∃ members, json.readValue (ofAscii
          "\x7b\"auths\":\x7b\"\\ufffd\":\x7b\"auth\":\"djpx\"\x7d,\"\\ufffd\":\x7b\"auth\":\"dTpw\"\x7d\x7d\x7d")
        = some (.object [(ofAscii "auths", .object members)]) ∧
      ∀ k, k ∈ members.map Prod.fst ↔
        k ∈ [(⟨[0xff], ofAscii "u", ofAscii "p"⟩ : Auth),
          ⟨[0xfe], ofAscii "v", ofAscii "q"⟩].map Auth.Address := by
  have r : json.readValue (ofAscii
        "\x7b\"auths\":\x7b\"\\ufffd\":\x7b\"auth\":\"djpx\"\x7d,\"\\ufffd\":\x7b\"auth\":\"dTpw\"\x7d\x7d\x7d")
      = some (document [([0xEF, 0xBF, 0xBD], encode (ofAscii "v") (ofAscii "q")),
          ([0xEF, 0xBF, 0xBD], encode (ofAscii "u") (ofAscii "p"))]) := rfl
  refine ⟨by decide, by decide, by decide, r, ?_⟩
  rintro ⟨members, h, hk⟩
  rw [r] at h
  simp only [document, Option.some.injEq, json.Value.object.injEq, List.cons.injEq,
    Prod.mk.injEq, true_and, and_true] at h
  subst h
  have := (hk [0xff]).2 (by decide)
  revert this
  decide

set_option maxRecDepth 100000 in
/-- C9 (amended). Marshal maps records to entries keyed by the verbatim address: for
every list of records whose addresses are valid UTF-8, `Marshal` returns (no
error, no panic) bytes that read back as a document `{"auths": members}` in
which the keys of `members` are exactly the `Address` fields of the list, each
once, and every member is `{"auth": encode Username Password}` of a record of
the list with the key as its address. An address that is a URL is written as
it is: the bytes for the address `"https://registry.example.com"` hold that
key, not the host that `hostname` returns for it. -/
theorem Marshal_keys_verbatim (list : List Auth)
    (hv : ∀ r ∈ list, validUTF8 r.Address = true) :
    (∃ bytes members, Marshal list = .returns bytes ∧
      json.readValue bytes = some (.object [(ofAscii "auths", .object members)]) ∧
      (∀ k, k ∈ members.map Prod.fst ↔ k ∈ list.map Auth.Address) ∧
      (members.map Prod.fst).Nodup ∧
      (∀ e ∈ members, ∃ r ∈ list, r.Address = e.1 ∧
        e.2 = .object [(ofAscii "auth", .string (encode r.Username r.Password))])) ∧
    Marshal [⟨ofAscii "https://registry.example.com", ofAscii "user", ofAscii "pass"⟩]
      = .returns (ofAscii
        "\x7b\"auths\":\x7b\"https://registry.example.com\":\x7b\"auth\":\"dXNlcjpwYXNz\"\x7d\x7d\x7d") ∧
    hostname (ofAscii "https://registry.example.com")
      = .returns (ofAscii "registry.example.com") := by
  refine ⟨?_, by decide, by decide⟩
  obtain ⟨bytes, hm, hr⟩ := readValue_Marshal_list list hv
  have hp := perm_sortByKey (MarshalLoop list [])
  have hk : ((json.sortByKey (MarshalLoop list [])).map memberOf).map Prod.fst
      = (json.sortByKey (MarshalLoop list [])).map Prod.fst := by
    rw [List.map_map]
    apply List.map_congr_left
    intro e _
    rfl
  refine ⟨bytes, _, hm, hr, ?_, ?_, ?_⟩
  · intro k
    rw [hk, (hp.map Prod.fst).mem_iff, MarshalLoop_keys]
    simp
  · rw [hk]
    exact (hp.map Prod.fst).nodup_iff.2 (MarshalLoop_nodup list [] (by simp))
  · intro e he
    obtain ⟨e0, he0, rfl⟩ := List.mem_map.1 he
    rcases MarshalLoop_mem list [] e0 (hp.mem_iff.1 he0) with h | ⟨r, hr1, h1, h2⟩
    · simp at h
    · exact ⟨r, hr1, h1, by simp [memberOf, h2]⟩

set_option maxRecDepth 100000 in
theorem Marshal_keys_verbatim_witness :
    (∀ r ∈ [(⟨ofAscii "https://registry.example.com", ofAscii "user", ofAscii "pass"⟩ : Auth),
        ⟨ofAscii "b.io", ofAscii "u", ofAscii "p"⟩,
        ⟨ofAscii "https://registry.example.com", ofAscii "v", ofAscii "q"⟩],
      validUTF8 r.Address = true) ∧
    ∃ bytes members,
      Marshal [⟨ofAscii "https://registry.example.com", ofAscii "user", ofAscii "pass"⟩,
        ⟨ofAscii "b.io", ofAscii "u", ofAscii "p"⟩,
        ⟨ofAscii "https://registry.example.com", ofAscii "v", ofAscii "q"⟩] = .returns bytes ∧
      json.readValue bytes = some (.object [(ofAscii "auths", .object members)]) ∧
      (∀ k, k ∈ members.map Prod.fst ↔
        k ∈ [(⟨ofAscii "https://registry.example.com", ofAscii "user", ofAscii "pass"⟩ : Auth),
          ⟨ofAscii "b.io", ofAscii "u", ofAscii "p"⟩,
          ⟨ofAscii "https://registry.example.com", ofAscii "v", ofAscii "q"⟩].map Auth.Address) ∧
      (members.map Prod.fst).Nodup ∧
      (∀ e ∈ members, ∃ r ∈ [(⟨ofAscii "https://registry.example.com", ofAscii "user",
            ofAscii "pass"⟩ : Auth),
          ⟨ofAscii "b.io", ofAscii "u", ofAscii "p"⟩,
          ⟨ofAscii "https://registry.example.com", ofAscii "v", ofAscii "q"⟩],
        r.Address = e.1 ∧
        e.2 = .object [(ofAscii "auth", .string (encode r.Username r.Password))]) :=
  ⟨by decide, (Marshal_keys_verbatim _ (by decide)).1⟩

set_option maxRecDepth 100000 in
/-- C10 (as stated, refuted). The first and the last record of the first list share
the address U+FFFD, which is valid UTF-8; the record between them has the
address `"\xff"`, which is not, and which `Marshal` writes as U+FFFD. The
produced document has two entries under the shared address, and the second
holds the token of the record between. In the second list two records share
the address `"\xff"`, and the produced document has no entry under that
address. -/
theorem Marshal_duplicate_counterexample :
    validUTF8 [0xEF, 0xBF, 0xBD] = true ∧ validUTF8 [0xff] = false ∧
    Marshal [⟨[0xEF, 0xBF, 0xBD], ofAscii "old", ofAscii "one"⟩,
        ⟨[0xff], ofAscii "x", ofAscii "y"⟩,
        ⟨[0xEF, 0xBF, 0xBD], ofAscii "new", ofAscii "two"⟩]
      = .returns (ofAscii "\x7b\"auths\":\x7b\"" ++ [0xEF, 0xBF, 0xBD] ++ ofAscii
        "\":\x7b\"auth\":\"bmV3OnR3bw==\"\x7d,\"\\ufffd\":\x7b\"auth\":\"eDp5\"\x7d\x7d\x7d") ∧
    json.readValue (ofAscii "\x7b\"auths\":\x7b\"" ++ [0xEF, 0xBF, 0xBD] ++ ofAscii
        "\":\x7b\"auth\":\"bmV3OnR3bw==\"\x7d,\"\\ufffd\":\x7b\"auth\":\"eDp5\"\x7d\x7d\x7d")
      = some (document [([0xEF, 0xBF, 0xBD], encode (ofAscii "new") (ofAscii "two")),
          ([0xEF, 0xBF, 0xBD], encode (ofAscii "x") (ofAscii "y"))]) ∧
    (¬ ∃ members, json.readValue (ofAscii "\x7b\"auths\":\x7b\"" ++ [0xEF, 0xBF, 0xBD] ++ ofAscii
          "\":\x7b\"auth\":\"bmV3OnR3bw==\"\x7d,\"\\ufffd\":\x7b\"auth\":\"eDp5\"\x7d\x7d\x7d")
        = some (.object [(ofAscii "auths", .object members)]) ∧
      members.filter (fun e => e.1 = [0xEF, 0xBF, 0xBD])
        = [([0xEF, 0xBF, 0xBD],
            .object [(ofAscii "auth", .string (encode (ofAscii "new") (ofAscii "two")))])]) ∧
    Marshal [⟨[0xff], ofAscii "old", ofAscii "one"⟩, ⟨[0xff], ofAscii "new", ofAscii "two"⟩]
      = .returns (ofAscii
        "\x7b\"auths\":\x7b\"\\ufffd\":\x7b\"auth\":\"bmV3OnR3bw==\"\x7d\x7d\x7d") ∧
    json.readValue (ofAscii
        "\x7b\"auths\":\x7b\"\\ufffd\":\x7b\"auth\":\"bmV3OnR3bw==\"\x7d\x7d\x7d")
      = some (document [([0xEF, 0xBF, 0xBD], encode (ofAscii "new") (ofAscii "two"))]) ∧
    ¬ ∃ members, json.readValue (ofAscii
          "\x7b\"auths\":\x7b\"\\ufffd\":\x7b\"auth\":\"bmV3OnR3bw==\"\x7d\x7d\x7d")
        = some (.object [(ofAscii "auths", .object members)]) ∧
      members.filter (fun e => e.1 = [0xff])
        = [([0xff],
            .object [(ofAscii "auth", .string (encode (ofAscii "new") (ofAscii "two")))])] := by
  have r1 : json.readValue (ofAscii "\x7b\"auths\":\x7b\"" ++ [0xEF, 0xBF, 0xBD] ++ ofAscii
        "\":\x7b\"auth\":\"bmV3OnR3bw==\"\x7d,\"\\ufffd\":\x7b\"auth\":\"eDp5\"\x7d\x7d\x7d")
      = some (document [([0xEF, 0xBF, 0xBD], encode (ofAscii "new") (ofAscii "two")),
          ([0xEF, 0xBF, 0xBD], encode (ofAscii "x") (ofAscii "y"))]) := rfl
  have r2 : json.readValue (ofAscii
        "\x7b\"auths\":\x7b\"\\ufffd\":\x7b\"auth\":\"bmV3OnR3bw==\"\x7d\x7d\x7d")
      = some (document [([0xEF, 0xBF, 0xBD], encode (ofAscii "new") (ofAscii "two"))]) := rfl
  refine ⟨by decide, by decide, by decide, r1, ?_, by decide, r2, ?_⟩
  · rintro ⟨members, h, hk⟩
    rw [r1] at h
    simp only [document, Option.some.injEq, json.Value.object.injEq, List.cons.injEq,
      Prod.mk.injEq, true_and, and_true] at h
    subst h
    have := congrArg List.length hk
    revert this
    decide
  · rintro ⟨members, h, hk⟩
    rw [r2] at h
    simp only [document, Option.some.injEq, json.Value.object.injEq, List.cons.injEq,
      Prod.mk.injEq, true_and, and_true] at h
    subst h
    have := congrArg List.length hk
    revert this
    decide

set_option maxRecDepth 100000 in
/-- C10 (amended). Marshal is last-write-wins on duplicate addresses: for every list
of records whose addresses are valid UTF-8, and every record `r` of it that is
the last one with its address, `Marshal` returns bytes that read back as a
document `{"auths": members}` in which exactly one member has the key
`r.Address`, and that member is `{"auth": encode r.Username r.Password}`. The
records before `r` with the same address leave no trace: `Marshal` returns
the same bytes for the list without them (this part holds for every list). -/
theorem Marshal_last_write_wins (pre post : List Auth) (r : Auth)
    (hlast : ∀ x ∈ post, x.Address ≠ r.Address)
    (hv : ∀ x ∈ pre ++ r :: post, validUTF8 x.Address = true) :
    (∃ bytes members, Marshal (pre ++ r :: post) = .returns bytes ∧
      json.readValue bytes = some (.object [(ofAscii "auths", .object members)]) ∧
      members.filter (fun e => e.1 = r.Address)
        = [(r.Address, .object [(ofAscii "auth", .string (encode r.Username r.Password))])]) ∧
    Marshal (pre ++ r :: post)
      = Marshal (pre.filter (fun x => x.Address ≠ r.Address) ++ r :: post) := by
  refine ⟨?_, Marshal_eq_of_perm _ _ (MarshalLoop_drop_overwritten pre post r hlast)⟩
  obtain ⟨bytes, hm, hr⟩ := readValue_Marshal_list (pre ++ r :: post) hv
  refine ⟨bytes, _, hm, hr, ?_⟩
  have hp := perm_sortByKey (MarshalLoop (pre ++ r :: post) [])
  have hf := hp.filter (fun e => e.1 = r.Address)
  rw [MarshalLoop_filter_last pre post r hlast, List.perm_singleton] at hf
  have hc : ((json.sortByKey (MarshalLoop (pre ++ r :: post) [])).map memberOf).filter
        (fun e => e.1 = r.Address)
      = ((json.sortByKey (MarshalLoop (pre ++ r :: post) [])).filter
          (fun e => e.1 = r.Address)).map memberOf := by
    rw [List.filter_map]
    rfl
  rw [hc, hf]
  rfl

set_option maxRecDepth 100000 in
theorem Marshal_last_write_wins_witness :
    (∀ x ∈ [(⟨ofAscii "third.io", ofAscii "z", ofAscii "w"⟩ : Auth)],
      x.Address ≠ ofAscii "reg.io") ∧
    (∀ x ∈ [(⟨ofAscii "reg.io", ofAscii "old", ofAscii "one"⟩ : Auth),
        ⟨ofAscii "other.io", ofAscii "x", ofAscii "y"⟩] ++
        ⟨ofAscii "reg.io", ofAscii "new", ofAscii "two"⟩ ::
        [⟨ofAscii "third.io", ofAscii "z", ofAscii "w"⟩], validUTF8 x.Address = true) ∧
    (∃ bytes members,
      Marshal ([⟨ofAscii "reg.io", ofAscii "old", ofAscii "one"⟩,
        ⟨ofAscii "other.io", ofAscii "x", ofAscii "y"⟩] ++
        ⟨ofAscii "reg.io", ofAscii "new", ofAscii "two"⟩ ::
        [⟨ofAscii "third.io", ofAscii "z", ofAscii "w"⟩]) = .returns bytes ∧
      json.readValue bytes = some (.object [(ofAscii "auths", .object members)]) ∧
      members.filter (fun e => e.1 = ofAscii "reg.io")
        = [(ofAscii "reg.io",
            .object [(ofAscii "auth", .string (encode (ofAscii "new") (ofAscii "two")))])]) ∧
    Marshal ([⟨ofAscii "reg.io", ofAscii "old", ofAscii "one"⟩,
        ⟨ofAscii "other.io", ofAscii "x", ofAscii "y"⟩] ++
        ⟨ofAscii "reg.io", ofAscii "new", ofAscii "two"⟩ ::
        [⟨ofAscii "third.io", ofAscii "z", ofAscii "w"⟩])
      = .returns (ofAscii
        "\x7b\"auths\":\x7b\"other.io\":\x7b\"auth\":\"eDp5\"\x7d,\"reg.io\":\x7b\"auth\":\"bmV3OnR3bw==\"\x7d,\"third.io\":\x7b\"auth\":\"ejp3\"\x7d\x7d\x7d") :=
  ⟨by decide, by decide,
    (Marshal_last_write_wins
      [⟨ofAscii "reg.io", ofAscii "old", ofAscii "one"⟩,
        ⟨ofAscii "other.io", ofAscii "x", ofAscii "y"⟩]
      [⟨ofAscii "third.io", ofAscii "z", ofAscii "w"⟩]
      ⟨ofAscii "reg.io", ofAscii "new", ofAscii "two"⟩ (by decide) (by decide)).1,
    by decide⟩

end DockerAuth
